import Mathlib

set_option maxHeartbeats 1000000

/-! Verification development for the filesystem utility module
`ds_toolkit/common/files.py`.

The module is embedded shallowly over a POSIX-style filesystem model: the
filesystem is a flat association list from resolved paths (lists of name
components) to entries, and path strings are resolved the way the POSIX
kernel resolves them, by splitting on the separator and discarding empty
components.  File contents are raw byte lists; the text layer models
CPython's utf-8 codec (the assumed locale encoding) together with the
universal-newline translation that text-mode `open` performs on reads.
On POSIX, text-mode writes translate each `\n` to `os.linesep`, which is
`\n` itself, so write-side translation is the identity. -/

inductive FsEntry where
  | file (content : List Nat)
  | dir
deriving DecidableEq

inductive FsErr where
  | alreadyExists
  | notFound
  | isADirectory
  | notADirectory
  | notEmpty
  | shutilError
  | decodeError
deriving DecidableEq

abbrev Fsys := List (List String × FsEntry)

instance {e a : Type} [DecidableEq e] [DecidableEq a] : DecidableEq (Except e a) :=
  fun x y =>
    match x, y with
    | .ok u, .ok v =>
      if h : u = v then isTrue (by rw [h]) else
        isFalse (fun he => h (by injection he))
    | .error u, .error v =>
      if h : u = v then isTrue (by rw [h]) else
        isFalse (fun he => h (by injection he))
    | .ok _, .error _ => isFalse (fun he => by injection he)
    | .error _, .ok _ => isFalse (fun he => by injection he)

def fsLookup : Fsys → List String → Option FsEntry
  | [], _ => none
  | kv :: rest, k => if kv.1 = k then some kv.2 else fsLookup rest k

/-- Splitting a character list on the path separator, discarding empty
components; `acc` holds the (reversed) characters of the current component. -/
def splitPathAux : List Char → List Char → List String
  | [], acc => if acc.isEmpty then [] else [String.mk acc.reverse]
  | c :: rest, acc =>
    if c = '/' then
      (if acc.isEmpty then [] else [String.mk acc.reverse]) ++ splitPathAux rest []
    else splitPathAux rest (c :: acc)

/-- Resolution of a path string against the (single-root) filesystem. -/
def resolve (s : String) : List String := splitPathAux s.data []

/-- A usable file or directory name: nonempty, not a dot entry, and without
the separator character. -/
def ValidName (n : String) : Prop :=
  n ≠ "" ∧ n ≠ "." ∧ n ≠ ".." ∧ ¬ ('/' ∈ n.data)

instance : DecidablePred ValidName := fun n => by
  unfold ValidName; infer_instance

def keyUnder (p k : List String) : Prop := k.take p.length = p

instance : ∀ p k, Decidable (keyUnder p k) := fun p k => by
  unfold keyUnder; infer_instance

def strictUnder (p k : List String) : Prop := keyUnder p k ∧ k ≠ p

instance : ∀ p k, Decidable (strictUnder p k) := fun p k => by
  unfold strictUnder; infer_instance

def keysNodup (fs : Fsys) : Prop := (fs.map Prod.fst).Nodup

instance : DecidablePred keysNodup := fun fs => by
  unfold keysNodup; infer_instance

def parentOk (fs : Fsys) (k : List String) : Prop :=
  k.dropLast = [] ∨ fsLookup fs k.dropLast = some .dir

instance : ∀ fs k, Decidable (parentOk fs k) := fun fs k => by
  unfold parentOk; infer_instance

/-- Well-formed filesystem: distinct keys, valid nonempty keys, and every
key's parent present as a directory (the root `[]` is an implicit directory). -/
def WFfs (fs : Fsys) : Prop :=
  keysNodup fs ∧ ∀ kv ∈ fs, kv.1 ≠ [] ∧ (∀ n ∈ kv.1, ValidName n) ∧ parentOk fs kv.1

instance : DecidablePred WFfs := fun fs => by
  unfold WFfs; infer_instance

/-- `os.path.join(a, b)` for POSIX (`posixpath.join`), one component. -/
def ospJoin (a b : String) : String :=
  if b.data.head? = some '/' then b
  else if a.data = [] then b
  else if a.data.getLast? = some '/' then a ++ b
  else a ++ "/" ++ b

/-- `os.path.split(p)` for POSIX: split after the last separator, stripping
trailing separators from the head unless it is all separators. -/
def ospSplit (p : String) : String × String :=
  let r := p.data.reverse
  let tailCs := (r.takeWhile (fun c => decide (c ≠ '/'))).reverse
  let headCs := (r.dropWhile (fun c => decide (c ≠ '/'))).reverse
  let head :=
    if headCs.all (fun c => decide (c = '/')) then headCs
    else (headCs.reverse.dropWhile (fun c => decide (c = '/'))).reverse
  (String.mk head, String.mk tailCs)

def ospBasename (p : String) : String := (ospSplit p).2

def entIsFile : Option FsEntry → Bool
  | some (.file _) => true
  | _ => false

def entIsDir : Option FsEntry → Bool
  | some .dir => true
  | _ => false

def FsEntry.isFile : FsEntry → Bool
  | .file _ => true
  | .dir => false

def FsEntry.isDir : FsEntry → Bool
  | .file _ => false
  | .dir => true

/-- `os.path.isfile`. -/
def osIsfile (fs : Fsys) (p : String) : Bool := entIsFile (fsLookup fs (resolve p))

/-- `os.path.isdir`; the root directory always exists. -/
def osIsdir (fs : Fsys) (p : String) : Bool :=
  decide (resolve p = []) || entIsDir (fsLookup fs (resolve p))

/-- `os.path.exists`. -/
def osExists (fs : Fsys) (p : String) : Bool :=
  decide (resolve p = []) || (fsLookup fs (resolve p)).isSome

/-- The children (name and entry) of directory `p`, in OS-reported order. -/
def childEntries (fs : Fsys) (p : List String) : List (String × FsEntry) :=
  fs.filterMap (fun kv =>
    match kv.1.getLast? with
    | some n => if kv.1.dropLast = p then some (n, kv.2) else none
    | none => none)

/-- `os.listdir`. -/
def osListdir (fs : Fsys) (p : String) : Except FsErr (List String) :=
  if osIsdir fs p then .ok ((childEntries fs (resolve p)).map Prod.fst)
  else .error .notFound

def parentDirOk (fs : Fsys) (k : List String) : Bool :=
  k.dropLast.isEmpty || entIsDir (fsLookup fs k.dropLast)

/-- `os.mknod`: fails with EEXIST when the path already exists (as a file
or as a directory), with ENOENT when the parent is missing. -/
def osMknod (fs : Fsys) (p : String) : Except FsErr Fsys :=
  if (resolve p).isEmpty then .error .alreadyExists
  else
    match fsLookup fs (resolve p) with
    | some _ => .error .alreadyExists
    | none =>
      if parentDirOk fs (resolve p) then .ok (fs ++ [(resolve p, .file [])])
      else .error .notFound

/-- `open(p, 'w+')` followed by a full write: truncate/create with the given
byte content.  Fails on a directory or when the parent directory is missing. -/
def osWriteFile (fs : Fsys) (p : String) (content : List Nat) : Except FsErr Fsys :=
  if (resolve p).isEmpty then .error .isADirectory
  else
    match fsLookup fs (resolve p) with
    | some .dir => .error .isADirectory
    | some (.file _) =>
      .ok (fs.map (fun kv => if kv.1 = resolve p then (resolve p, .file content) else kv))
    | none =>
      if parentDirOk fs (resolve p) then .ok (fs ++ [(resolve p, .file content)])
      else .error .notFound

/-- `os.remove` on a path known to be a regular file. -/
def osRemove (fs : Fsys) (p : String) : Fsys :=
  fs.filter (fun kv => decide (kv.1 ≠ resolve p))

/-- Rekeying used by `os.rename`: everything at or below `ks` moves to the
corresponding path below `kd`; an entry previously at `kd` is replaced. -/
def renameKeys (fs : Fsys) (ks kd : List String) : Fsys :=
  fs.filterMap (fun kv =>
    if kv.1.take ks.length = ks then some (kd ++ kv.1.drop ks.length, kv.2)
    else if kv.1.take kd.length = kd then none
    else some kv)

/-- `os.rename` on POSIX (single filesystem): an existing regular file at
the destination is replaced silently; a file cannot replace a directory
(EISDIR), a directory cannot replace a file (ENOTDIR) or a nonempty
directory (ENOTEMPTY); the destination parent must exist. -/
def osRename (fs : Fsys) (src dst : String) : Except FsErr Fsys :=
  match fsLookup fs (resolve src) with
  | none => .error .notFound
  | some e =>
    if (resolve src).isEmpty then .error .notFound
    else if (resolve dst).isEmpty then .error .isADirectory
    else if !parentDirOk fs (resolve dst) then .error .notFound
    else
      match e, fsLookup fs (resolve dst) with
      | .file _, some .dir => .error .isADirectory
      | .dir, some (.file _) => .error .notADirectory
      | .dir, some .dir =>
        if (childEntries fs (resolve dst)).isEmpty then
          .ok (renameKeys fs (resolve src) (resolve dst))
        else .error .notEmpty
      | _, _ => .ok (renameKeys fs (resolve src) (resolve dst))

/-- `shutil.move` restricted to one filesystem: moving onto an existing
directory retargets into that directory and raises `shutil.Error` when the
retargeted destination already exists; otherwise it is `os.rename`. -/
def shutilMove (fs : Fsys) (src dst : String) : Except FsErr Fsys :=
  if osIsdir fs dst then
    let realDst := ospJoin dst (ospBasename src)
    if osExists fs realDst then .error .shutilError
    else osRename fs src realDst
  else osRename fs src dst

/-! The text layer: CPython's utf-8 codec and text-mode newline handling. -/

/-- A byte in the continuation range `0x80..0xBF`. -/
def isCont (b : Nat) : Bool := decide (0x80 ≤ b) && decide (b < 0xC0)

/-- utf-8 encoding of one Unicode scalar value. -/
def encChar (c : Nat) : List Nat :=
  if c < 0x80 then [c]
  else if c < 0x800 then [0xC0 + c / 64, 0x80 + c % 64]
  else if c < 0x10000 then [0xE0 + c / 4096, 0x80 + c / 64 % 64, 0x80 + c % 64]
  else [0xF0 + c / 0x40000, 0x80 + c / 4096 % 64, 0x80 + c / 64 % 64, 0x80 + c % 64]

def utf8EncodeCps (cps : List Nat) : List Nat := cps.flatMap encChar

def utf8Encode (s : List Char) : List Nat := utf8EncodeCps (s.map Char.toNat)

/-- The 2-byte decoding step: continuation check and scalar assembly. -/
def dec2body (b b1 : Nat) (tail : Option (List Nat)) : Option (List Nat) :=
  if isCont b1 then Option.map (fun cs => ((b - 0xC0) * 64 + (b1 - 0x80)) :: cs) tail
  else none

/-- The 3-byte decoding step: also rejects overlong forms and surrogates. -/
def dec3body (b b1 b2 : Nat) (tail : Option (List Nat)) : Option (List Nat) :=
  if isCont b1 && isCont b2 then
    if (b - 0xE0) * 4096 + (b1 - 0x80) * 64 + (b2 - 0x80) < 0x800 ∨
        (0xD800 ≤ (b - 0xE0) * 4096 + (b1 - 0x80) * 64 + (b2 - 0x80) ∧
          (b - 0xE0) * 4096 + (b1 - 0x80) * 64 + (b2 - 0x80) < 0xE000) then none
    else
      Option.map (fun cs => ((b - 0xE0) * 4096 + (b1 - 0x80) * 64 + (b2 - 0x80)) :: cs)
        tail
  else none

/-- The 4-byte decoding step: also rejects overlong forms and values above
`0x10FFFF`. -/
def dec4body (b b1 b2 b3 : Nat) (tail : Option (List Nat)) : Option (List Nat) :=
  if isCont b1 && isCont b2 && isCont b3 then
    if (b - 0xF0) * 0x40000 + (b1 - 0x80) * 4096 + (b2 - 0x80) * 64 +
          (b3 - 0x80) < 0x10000 ∨
        0x110000 ≤ (b - 0xF0) * 0x40000 + (b1 - 0x80) * 4096 + (b2 - 0x80) * 64 +
          (b3 - 0x80) then none
    else
      Option.map (fun cs => ((b - 0xF0) * 0x40000 + (b1 - 0x80) * 4096 +
        (b2 - 0x80) * 64 + (b3 - 0x80)) :: cs) tail
  else none

/-- Strict utf-8 decoding to scalar values (CPython `errors='strict'`):
rejects continuation-range and overlong leads, unpaired continuations,
surrogates, and anything above `0x10FFFF`.  A missing continuation byte is
represented by the out-of-range default `256`. -/
def utf8DecodeStrict : List Nat → Option (List Nat)
  | [] => some []
  | b :: rest =>
    if b < 0x80 then Option.map (fun cs => b :: cs) (utf8DecodeStrict rest)
    else if b < 0xC2 then none
    else if b < 0xE0 then dec2body b (rest.headD 256) (utf8DecodeStrict (rest.drop 1))
    else if b < 0xF0 then
      dec3body b (rest.headD 256) ((rest.drop 1).headD 256)
        (utf8DecodeStrict (rest.drop 2))
    else if b < 0xF5 then
      dec4body b (rest.headD 256) ((rest.drop 1).headD 256) ((rest.drop 2).headD 256)
        (utf8DecodeStrict (rest.drop 3))
    else none
termination_by l => l.length
decreasing_by
  all_goals simp [List.length_drop]
  all_goals omega

/-- The 2-byte step of the `errors='ignore'` decoder: on failure the lead
byte is dropped and decoding resumes at `skip`. -/
def ign2body (b b1 : Nat) (skip consumed : List Nat) : List Nat :=
  if isCont b1 then ((b - 0xC0) * 64 + (b1 - 0x80)) :: consumed else skip

/-- The 3-byte step of the `errors='ignore'` decoder. -/
def ign3body (b b1 b2 : Nat) (skip consumed : List Nat) : List Nat :=
  if isCont b1 && isCont b2 then
    if (b - 0xE0) * 4096 + (b1 - 0x80) * 64 + (b2 - 0x80) < 0x800 ∨
        (0xD800 ≤ (b - 0xE0) * 4096 + (b1 - 0x80) * 64 + (b2 - 0x80) ∧
          (b - 0xE0) * 4096 + (b1 - 0x80) * 64 + (b2 - 0x80) < 0xE000) then skip
    else ((b - 0xE0) * 4096 + (b1 - 0x80) * 64 + (b2 - 0x80)) :: consumed
  else skip

/-- The 4-byte step of the `errors='ignore'` decoder. -/
def ign4body (b b1 b2 b3 : Nat) (skip consumed : List Nat) : List Nat :=
  if isCont b1 && isCont b2 && isCont b3 then
    if (b - 0xF0) * 0x40000 + (b1 - 0x80) * 4096 + (b2 - 0x80) * 64 +
          (b3 - 0x80) < 0x10000 ∨
        0x110000 ≤ (b - 0xF0) * 0x40000 + (b1 - 0x80) * 4096 + (b2 - 0x80) * 64 +
          (b3 - 0x80) then skip
    else
      ((b - 0xF0) * 0x40000 + (b1 - 0x80) * 4096 + (b2 - 0x80) * 64 +
        (b3 - 0x80)) :: consumed
  else skip

/-- utf-8 decoding with `errors='ignore'`: an undecodable byte is skipped
and decoding resumes at the next byte instead of raising. -/
def utf8DecodeIgnore : List Nat → List Nat
  | [] => []
  | b :: rest =>
    if b < 0x80 then b :: utf8DecodeIgnore rest
    else if b < 0xC2 then utf8DecodeIgnore rest
    else if b < 0xE0 then
      ign2body b (rest.headD 256) (utf8DecodeIgnore rest)
        (utf8DecodeIgnore (rest.drop 1))
    else if b < 0xF0 then
      ign3body b (rest.headD 256) ((rest.drop 1).headD 256) (utf8DecodeIgnore rest)
        (utf8DecodeIgnore (rest.drop 2))
    else if b < 0xF5 then
      ign4body b (rest.headD 256) ((rest.drop 1).headD 256) ((rest.drop 2).headD 256)
        (utf8DecodeIgnore rest) (utf8DecodeIgnore (rest.drop 3))
    else utf8DecodeIgnore rest
termination_by l => l.length
decreasing_by
  all_goals simp [List.length_drop]
  all_goals omega

def cpsToChars (cps : List Nat) : List Char := cps.map Char.ofNat

/-- Universal-newline translation performed by text-mode reads with the
default `newline=None`: `\r\n` and lone `\r` both become `\n`. -/
def univNewlines : List Char → List Char
  | [] => []
  | c :: rest =>
    if c = '\r' then
      match rest with
      | c2 :: rest2 =>
        if c2 = '\n' then '\n' :: univNewlines rest2
        else '\n' :: univNewlines (c2 :: rest2)
      | [] => ['\n']
    else c :: univNewlines rest

/-- `text.replace(pat, '')`: removes the non-overlapping occurrences of
`pat`, scanning left to right; an empty pattern removes nothing. -/
def removeAll (pat : List Char) : List Char → List Char
  | [] => []
  | c :: rest =>
    if h : pat ≠ [] ∧ (c :: rest).take pat.length = pat then
      removeAll pat ((c :: rest).drop pat.length)
    else c :: removeAll pat rest
termination_by t => t.length
decreasing_by
  · have h2 := congrArg List.length h.2
    have h1 : pat.length ≠ 0 := fun h0 => h.1 (List.eq_nil_of_length_eq_zero h0)
    simp only [List.length_take, List.length_cons] at h2
    simp only [List.length_drop, List.length_cons]
    omega
  · simp

/-! Embeddings of the functions of `ds_toolkit/common/files.py`.  Each
definition mirrors its source function line by line; the filesystem state
is passed explicitly and a raised exception becomes an `Except` error. -/

/-- `list_dir(folder_path, full_path=False)`. -/
def list_dir (fs : Fsys) (folder_path : String) (full_path : Bool := false) :
    Except FsErr (List String) :=
  match osListdir fs folder_path with
  | .error e => .error e
  | .ok file_names =>
    if full_path then .ok (file_names.map (fun n => ospJoin folder_path n))
    else .ok file_names

/-- `list_dir_files(folder_path, full_path=False)`. -/
def list_dir_files (fs : Fsys) (folder_path : String) (full_path : Bool := false) :
    Except FsErr (List String) :=
  match osListdir fs folder_path with
  | .error e => .error e
  | .ok file_names =>
    .ok (file_names.filterMap (fun file_name =>
      let file_path := ospJoin folder_path file_name
      if osIsfile fs file_path then some (if full_path then file_path else file_name)
      else none))

/-- `list_dir_folders(folder_path, full_path=False)`; with `full_path` a
trailing separator is appended to each result. -/
def list_dir_folders (fs : Fsys) (folder_path : String) (full_path : Bool := false) :
    Except FsErr (List String) :=
  match osListdir fs folder_path with
  | .error e => .error e
  | .ok file_names =>
    .ok (file_names.filterMap (fun file_name =>
      let file_path := ospJoin folder_path file_name
      if osIsdir fs file_path then some (if full_path then file_path ++ "/" else file_name)
      else none))

/-- `os.walk(top)` (top-down, errors swallowed): visits `top` when it is a
directory and recurses into subdirectories in listing order.  `fuel` bounds
the recursion depth; with fuel above the longest key the walk is complete. -/
def osWalkAux (fs : Fsys) : Nat → String → List (String × List String × List String)
  | 0, _ => []
  | fuel + 1, top =>
    if osIsdir fs top then
      let cs := childEntries fs (resolve top)
      let dirnames := (cs.filter (fun c => c.2.isDir)).map Prod.fst
      let filenames := (cs.filter (fun c => c.2.isFile)).map Prod.fst
      (top, dirnames, filenames) ::
        dirnames.flatMap (fun d => osWalkAux fs fuel (ospJoin top d))
    else []

def fsDepthBound (fs : Fsys) : Nat := fs.foldr (fun kv m => max kv.1.length m) 0

def osWalk (fs : Fsys) (top : String) : List (String × List String × List String) :=
  osWalkAux fs (fsDepthBound fs + 1) top

/-- `list_dir_tree(root_folder)`. -/
def list_dir_tree (fs : Fsys) (root_folder : String) : List String :=
  (osWalk fs root_folder).flatMap (fun rdf =>
    rdf.2.2.filterMap (fun file =>
      let fp := ospJoin rdf.1 file
      if osIsdir fs fp then none else some fp))

/-- The content-type inspector collaborator (the `magic` library): an
optional external capability; each probe may raise an OS error. -/
structure MagicLib where
  fromFileInfo : Fsys → String → Except FsErr String
  fromFileMime : Fsys → String → Except FsErr String

/-- The log message emitted when importing the inspector fails. -/
def magicImportErrorMsg : String := "Exception importing magic library."

/-- `get_file_type(file_path)`: result record `{file_path, info, type}`. -/
structure FileTypeInfo where
  file_path : String
  info : String
  type : String
deriving DecidableEq

/-- `get_file_type(file_path)`: when the inspector is unavailable the
error is logged and `None` is returned; otherwise the two probes run and
their errors propagate.  The second component is the log output. -/
def get_file_type (magic : Option MagicLib) (fs : Fsys) (file_path : String) :
    Except FsErr (Option FileTypeInfo) × List String :=
  match magic with
  | none => (.ok none, [magicImportErrorMsg])
  | some m =>
    match m.fromFileInfo fs file_path with
    | .error e => (.error e, [])
    | .ok info =>
      match m.fromFileMime fs file_path with
      | .error e => (.error e, [])
      | .ok ty => (.ok (some ⟨file_path, info, ty⟩), [])

/-- `create_file(file_path)`. -/
def create_file (fs : Fsys) (file_path : String) : Except FsErr Fsys :=
  if osIsfile fs file_path then .error .alreadyExists
  else osMknod fs file_path

/-- `write_to_file(file_path, data, overwrite=True)`; on POSIX the
text-mode write stores the utf-8 encoding of `data` unchanged. -/
def write_to_file (fs : Fsys) (file_path : String) (data : String)
    (overwrite : Bool := true) : Except FsErr Fsys :=
  if !overwrite && osIsfile fs file_path then .error .alreadyExists
  else osWriteFile fs file_path (utf8Encode data.data)

/-- `read_file(file_path)`: strict utf-8 decoding, then universal-newline
translation. -/
def read_file (fs : Fsys) (file_path : String) : Except FsErr String :=
  match fsLookup fs (resolve file_path) with
  | some (.file bs) =>
    match utf8DecodeStrict bs with
    | some cps => .ok (String.mk (univNewlines (cpsToChars cps)))
    | none => .error .decodeError
  | some .dir => .error .isADirectory
  | none => .error .notFound

/-- `delete_file(file_path)`. -/
def delete_file (fs : Fsys) (file_path : String) : Fsys :=
  if osIsfile fs file_path then osRemove fs file_path else fs

/-- `move_file(from_file_path, to_file_path)`. -/
def move_file (fs : Fsys) (from_file_path to_file_path : String) : Except FsErr Fsys :=
  if osIsfile fs to_file_path then .error .alreadyExists
  else shutilMove fs from_file_path to_file_path

/-- `rename_file(file_path, new_name)`. -/
def rename_file (fs : Fsys) (file_path new_name : String) : Except FsErr Fsys :=
  let ht := ospSplit file_path
  let to_file_path := ospJoin ht.1 new_name
  if osIsfile fs to_file_path then .error .alreadyExists
  else osRename fs file_path to_file_path

/-- The encodings the model provides; the source defaults both encoding
arguments to `'utf-8'`. -/
inductive TextEncoding where
  | utf8
deriving DecidableEq

def decodeWith : TextEncoding → List Nat → List Nat
  | .utf8, bs => utf8DecodeIgnore bs

def encodeWith : TextEncoding → List Char → List Nat
  | .utf8, cs => utf8Encode cs

/-- `fix_encoding(file_path, read_as='utf-8', write_as='utf-8',
remove_chars=None)`: error-tolerant read, optional removal of each listed
substring, full in-place rewrite.  An empty `remove_chars` list is falsy in
the source, which coincides with folding over no substrings. -/
def fix_encoding (fs : Fsys) (file_path : String)
    (read_as : TextEncoding := .utf8) (write_as : TextEncoding := .utf8)
    (remove_chars : Option (List String) := none) : Except FsErr Fsys :=
  match fsLookup fs (resolve file_path) with
  | none => .error .notFound
  | some .dir => .error .isADirectory
  | some (.file bs) =>
    let text := univNewlines (cpsToChars (decodeWith read_as bs))
    let text :=
      match remove_chars with
      | some rcs => rcs.foldl (fun t rc => removeAll rc.data t) text
      | none => text
    osWriteFile fs file_path (encodeWith write_as text)

/-- `move_all_files_from_root(root_folder, to_folder)`: the helper loop.
A raised exception aborts the loop with the state reached so far. -/
def moveAllLoop (to_folder : String) : Fsys → List String → Fsys × Option FsErr
  | st, [] => (st, none)
  | st, file_path :: rest =>
    if osIsfile st file_path then
      let ht := ospSplit file_path
      match move_file st file_path (ospJoin to_folder ht.2) with
      | .ok st1 => moveAllLoop to_folder st1 rest
      | .error e => (st, some e)
    else moveAllLoop to_folder st rest

/-- `move_all_files_from_root(root_folder, to_folder)`. -/
def move_all_files_from_root (fs : Fsys) (root_folder to_folder : String) :
    Fsys × Option FsErr :=
  moveAllLoop to_folder fs (list_dir_tree fs root_folder)

/-- State after an operation whose exceptions leave the filesystem as it
was at the raise point. -/
def runState (r : Except FsErr Fsys) (fs : Fsys) : Fsys :=
  match r with
  | .ok fs1 => fs1
  | .error _ => fs

/-! Specification-side derived notions used to state the claims. -/

def lastName (k : List String) : String := k.getLastD ""

/-- Left fold of `os.path.join` over components. -/
def joinComps (s : String) (cs : List String) : String := cs.foldl ospJoin s

/-- The file entries strictly below directory `p`, in store order. -/
def fileKeysUnder (fs : Fsys) (p : List String) : Fsys :=
  fs.filter (fun kv => decide (strictUnder p kv.1) && kv.2.isFile)

/-- The basenames of all files strictly below `p`. -/
def treeBasenames (fs : Fsys) (p : List String) : List String :=
  (fileKeysUnder fs p).map (fun kv => lastName kv.1)

/-- The lookup function of the state reached from `fs0` after the files in
`moved` (with their recorded contents) have been flattened into folder `q`. -/
def movedView (fs0 : Fsys) (q : List String)
    (moved : List (List String × List Nat)) (j : List String) : Option FsEntry :=
  if j ∈ moved.map Prod.fst then none
  else
    match moved.find? (fun m => decide (j = q ++ [lastName m.1])) with
    | some m => some (.file m.2)
    | none => fsLookup fs0 j

/-- The recorded content of the file stored at key `k` (empty if absent). -/
def contentAt (fs : Fsys) (k : List String) : List Nat :=
  match fsLookup fs k with
  | some (.file c) => c
  | _ => []

/-- The move records (resolved key and stored content) of the paths in `l`,
read against the initial store. -/
def moveRecords (fs0 : Fsys) (l : List String) : List (List String × List Nat) :=
  l.map (fun s => (resolve s, contentAt fs0 (resolve s)))

/-- The names of the immediate subdirectories of `p`, in store order. -/
def dirChildNames (fs : Fsys) (p : List String) : List String :=
  ((childEntries fs p).filter (fun c => c.2.isDir)).map Prod.fst

/-! Basic lookup lemmas for the flat store. -/

theorem fsLookup_append (fs l : Fsys) (j : List String) :
    fsLookup (fs ++ l) j =
      match fsLookup fs j with
      | some e => some e
      | none => fsLookup l j := by
  induction fs with
  | nil => simp [fsLookup]
  | cons kv rest ih =>
    simp only [List.cons_append, fsLookup]
    by_cases h : kv.1 = j
    · simp [h]
    · simp [h, ih]

theorem fsLookup_cons (kv : List String × FsEntry) (rest : Fsys) (j : List String) :
    fsLookup (kv :: rest) j = if kv.1 = j then some kv.2 else fsLookup rest j := rfl

theorem fsLookup_filter_ne (fs : Fsys) (k j : List String) :
    fsLookup (fs.filter (fun kv => decide (kv.1 ≠ k))) j =
      if j = k then none else fsLookup fs j := by
  induction fs with
  | nil => by_cases hj : j = k <;> simp [fsLookup, hj]
  | cons kv rest ih =>
    by_cases h : kv.1 = k
    · rw [List.filter_cons_of_neg (by simp [h])]
      rw [ih, fsLookup_cons]
      by_cases hj : j = k
      · simp [hj]
      · rw [if_neg hj, if_neg hj, if_neg (fun e : kv.1 = j => hj (e ▸ h))]
    · rw [List.filter_cons_of_pos (by simp [h])]
      rw [fsLookup_cons, fsLookup_cons, ih]
      by_cases hjk : j = k
      · rw [if_pos hjk, if_pos hjk, if_neg (fun e : kv.1 = j => h (e.trans hjk))]
      · rw [if_neg hjk, if_neg hjk]

theorem fsLookup_map_update_self (fs : Fsys) (k : List String) (c : List Nat)
    (e : FsEntry) (h : fsLookup fs k = some e) :
    fsLookup (fs.map (fun kv => if kv.1 = k then (k, FsEntry.file c) else kv)) k =
      some (.file c) := by
  induction fs with
  | nil => simp [fsLookup] at h
  | cons kv rest ih =>
    rw [fsLookup_cons] at h
    by_cases hk : kv.1 = k
    · simp [List.map_cons, if_pos hk, fsLookup_cons]
    · rw [if_neg hk] at h
      simp only [List.map_cons, if_neg hk, fsLookup_cons, if_neg hk]
      exact ih h

theorem fsLookup_map_update_other (fs : Fsys) (k j : List String) (c : List Nat)
    (hj : j ≠ k) :
    fsLookup (fs.map (fun kv => if kv.1 = k then (k, FsEntry.file c) else kv)) j =
      fsLookup fs j := by
  induction fs with
  | nil => simp [fsLookup]
  | cons kv rest ih =>
    by_cases hk : kv.1 = k
    · simp only [List.map_cons, if_pos hk, fsLookup_cons]
      rw [if_neg (fun e : k = j => hj e.symm), ih,
        if_neg (fun e : kv.1 = j => hj (e.symm.trans hk))]
    · simp only [List.map_cons, if_neg hk, fsLookup_cons]
      by_cases hkj : kv.1 = j
      · rw [if_pos hkj, if_pos hkj]
      · rw [if_neg hkj, if_neg hkj, ih]

/-- Success characterization of the modelled `open(p, 'w+')` write. -/
theorem osWriteFile_ok (fs fs1 : Fsys) (p : String) (content : List Nat)
    (h : osWriteFile fs p content = .ok fs1) :
    fsLookup fs1 (resolve p) = some (.file content) ∧
      ∀ j, j ≠ resolve p → fsLookup fs1 j = fsLookup fs j := by
  unfold osWriteFile at h
  by_cases hk : (resolve p).isEmpty
  · rw [if_pos hk] at h; exact absurd h (by simp)
  · rw [if_neg hk] at h
    cases he : fsLookup fs (resolve p) with
    | none =>
      rw [he] at h
      by_cases hp : parentDirOk fs (resolve p)
      · rw [if_pos hp] at h
        injection h with h
        subst h
        constructor
        · rw [fsLookup_append, he]; simp [fsLookup]
        · intro j hj
          rw [fsLookup_append]
          cases hfj : fsLookup fs j with
          | some e => rfl
          | none =>
            simp only [fsLookup]
            rw [if_neg (fun e : resolve p = j => hj e.symm)]
      · rw [if_neg hp] at h; exact absurd h (by simp)
    | some e =>
      cases e with
      | dir => rw [he] at h; exact absurd h (by simp)
      | file old =>
        rw [he] at h
        injection h with h
        subst h
        exact ⟨fsLookup_map_update_self fs (resolve p) content _ he,
          fun j hj => fsLookup_map_update_other fs (resolve p) j content hj⟩

/-- C2: for every pair of paths `a` and `b`, if `b` already exists as a
regular file then `move_file(a, b)` raises `AlreadyExistsError` and the
filesystem is unchanged: the file at `a` remains at its original location
with its content intact (the existence check happens before the move). -/
theorem move_file_target_exists_guard (fs : Fsys) (a b : String)
    (h : osIsfile fs b = true) :
    move_file fs a b = .error .alreadyExists ∧
      runState (move_file fs a b) fs = fs ∧
      fsLookup (runState (move_file fs a b) fs) (resolve a) = fsLookup fs (resolve a) := by
  have h1 : move_file fs a b = .error .alreadyExists := by
    unfold move_file
    rw [if_pos h]
  exact ⟨h1, by rw [h1]; rfl, by rw [h1]; rfl⟩

theorem move_file_target_exists_guard_witness :
    osIsfile [(["a"], FsEntry.file [1]), (["b"], FsEntry.file [2])] "b" = true ∧
      move_file [(["a"], FsEntry.file [1]), (["b"], FsEntry.file [2])] "a" "b" =
        .error .alreadyExists :=
  ⟨by decide,
    (move_file_target_exists_guard [(["a"], FsEntry.file [1]), (["b"], FsEntry.file [2])]
      "a" "b" (by decide)).1⟩

/-- C9: for every path `p` that does not currently exist as a regular file,
`delete_file(p)` does not raise and leaves the filesystem unchanged;
calling `delete_file` twice in a row on the same path is always safe
(delete is idempotent).  The operation is total, so it never raises. -/
theorem delete_file_idempotent (fs : Fsys) (p : String) :
    (osIsfile fs p = false → delete_file fs p = fs) ∧
      delete_file (delete_file fs p) p = delete_file fs p := by
  constructor
  · intro h
    unfold delete_file
    rw [if_neg (by simp [h])]
  · by_cases h : osIsfile fs p = true
    · have hfirst : delete_file fs p = osRemove fs p := by
        unfold delete_file; rw [if_pos h]
      have hrm : osIsfile (osRemove fs p) p = false := by
        unfold osIsfile osRemove
        rw [fsLookup_filter_ne fs (resolve p) (resolve p), if_pos rfl]
        rfl
      rw [hfirst]
      unfold delete_file
      rw [if_neg (by simp [hrm])]
    · have h0 : osIsfile fs p = false := by
        cases hb : osIsfile fs p
        · rfl
        · exact absurd hb h
      have h1 : delete_file fs p = fs := by
        unfold delete_file; rw [if_neg (by simp [h0])]
      rw [h1]
      exact h1

theorem delete_file_idempotent_witness :
    osIsfile [(["d"], FsEntry.dir)] "nope" = false ∧
      delete_file [(["d"], FsEntry.dir)] "nope" = [(["d"], FsEntry.dir)] ∧
      delete_file (delete_file [(["d"], FsEntry.dir)] "nope") "nope" =
        delete_file [(["d"], FsEntry.dir)] "nope" :=
  ⟨by decide, (delete_file_idempotent [(["d"], FsEntry.dir)] "nope").1 (by decide),
    (delete_file_idempotent [(["d"], FsEntry.dir)] "nope").2⟩

/-- C3: `write_to_file(p, data, overwrite=false)` raises
`AlreadyExistsError` when `p` already exists as a regular file, before any
write occurs, so the existing content is unchanged; with `overwrite=true`
(the default) the call fully replaces any existing content with `data`. -/
theorem write_to_file_overwrite_guard (fs : Fsys) (p data : String) :
    (osIsfile fs p = true →
      write_to_file fs p data false = .error .alreadyExists ∧
        runState (write_to_file fs p data false) fs = fs ∧
        fsLookup (runState (write_to_file fs p data false) fs) (resolve p) =
          fsLookup fs (resolve p)) ∧
      ∀ fs1, write_to_file fs p data true = .ok fs1 →
        fsLookup fs1 (resolve p) = some (.file (utf8Encode data.data)) ∧
          ∀ j, j ≠ resolve p → fsLookup fs1 j = fsLookup fs j := by
  constructor
  · intro h
    have h1 : write_to_file fs p data false = .error .alreadyExists := by
      unfold write_to_file
      rw [if_pos (by simp [h])]
    exact ⟨h1, by rw [h1]; rfl, by rw [h1]; rfl⟩
  · intro fs1 hw
    unfold write_to_file at hw
    rw [if_neg (by simp)] at hw
    exact osWriteFile_ok fs fs1 p _ hw

theorem write_to_file_overwrite_guard_witness :
    osIsfile [(["f"], FsEntry.file [104])] "f" = true ∧
      write_to_file [(["f"], FsEntry.file [104])] "f" "x" false = .error .alreadyExists ∧
      write_to_file [(["f"], FsEntry.file [104])] "f" "x" true =
        .ok [(["f"], FsEntry.file [120])] ∧
      fsLookup [(["f"], FsEntry.file [120])] (resolve "f") =
        some (.file (utf8Encode "x".data)) :=
  ⟨by decide,
    ((write_to_file_overwrite_guard [(["f"], FsEntry.file [104])] "f" "x").1 (by decide)).1,
    by rfl,
    ((write_to_file_overwrite_guard [(["f"], FsEntry.file [104])] "f" "x").2
      [(["f"], FsEntry.file [120])] (by rfl)).1⟩

/-- C6: when the content-type inspector collaborator is unavailable,
`get_file_type` logs an error and returns an empty result without raising;
this soft-fail is triggered exclusively by the inspector's unavailability,
and in every other failure case the error propagates to the caller. -/
theorem get_file_type_soft_fail (fs : Fsys) (p : String) :
    get_file_type none fs p = (.ok none, [magicImportErrorMsg]) ∧
      (∀ (m : MagicLib) (e : FsErr), m.fromFileInfo fs p = .error e →
        get_file_type (some m) fs p = (.error e, [])) ∧
      (∀ (m : MagicLib) (info : String) (e : FsErr),
        m.fromFileInfo fs p = .ok info → m.fromFileMime fs p = .error e →
          get_file_type (some m) fs p = (.error e, [])) ∧
      ∀ (m : MagicLib) (info ty : String),
        m.fromFileInfo fs p = .ok info → m.fromFileMime fs p = .ok ty →
          get_file_type (some m) fs p = (.ok (some ⟨p, info, ty⟩), []) := by
  refine ⟨rfl, ?_, ?_, ?_⟩
  · intro m e h
    simp [get_file_type, h]
  · intro m info e h1 h2
    simp [get_file_type, h1, h2]
  · intro m info ty h1 h2
    simp [get_file_type, h1, h2]

theorem get_file_type_soft_fail_witness :
    get_file_type none [] "f" = (.ok none, [magicImportErrorMsg]) ∧
      (MagicLib.mk (fun _ _ => .error .notFound) (fun _ _ => .ok "t")).fromFileInfo
          [] "f" = .error .notFound ∧
      get_file_type
          (some (MagicLib.mk (fun _ _ => .error .notFound) (fun _ _ => .ok "t")))
          [] "f" = (.error .notFound, []) :=
  ⟨(get_file_type_soft_fail [] "f").1, rfl,
    (get_file_type_soft_fail [] "f").2.1
      (MagicLib.mk (fun _ _ => .error .notFound) (fun _ _ => .ok "t")) .notFound rfl⟩

/-! Lemmas about directory targets and the overwrite guards. -/

theorem fsLookup_eq_none (fs : Fsys) (j : List String)
    (h : ∀ kv ∈ fs, kv.1 ≠ j) : fsLookup fs j = none := by
  induction fs with
  | nil => rfl
  | cons kv rest ih =>
    rw [fsLookup_cons, if_neg (h kv (by simp))]
    exact ih (fun kv2 hm => h kv2 (by simp [hm]))

theorem osIsdir_imp_not_osIsfile (fs : Fsys) (t : String) (hwf : WFfs fs)
    (h : osIsdir fs t = true) : osIsfile fs t = false := by
  unfold osIsdir at h
  unfold osIsfile
  by_cases hr : resolve t = []
  · rw [hr, fsLookup_eq_none fs [] (fun kv hm => (hwf.2 kv hm).1)]
    rfl
  · rw [decide_eq_false hr, Bool.false_or] at h
    cases hl : fsLookup fs (resolve t) with
    | none => simp [hl, entIsDir] at h
    | some e =>
      cases e with
      | file c => simp [hl, entIsDir] at h
      | dir => simp [hl, entIsFile]

theorem osRename_ne_alreadyExists (fs : Fsys) (src dst : String) :
    osRename fs src dst ≠ .error .alreadyExists := by
  intro h
  unfold osRename at h
  repeat' split at h
  all_goals simp at h

theorem osWriteFile_ne_alreadyExists (fs : Fsys) (p : String) (content : List Nat) :
    osWriteFile fs p content ≠ .error .alreadyExists := by
  intro h
  unfold osWriteFile at h
  repeat' split at h
  all_goals simp at h

theorem shutilMove_ne_alreadyExists (fs : Fsys) (src dst : String) :
    shutilMove fs src dst ≠ .error .alreadyExists := by
  intro h
  unfold shutilMove at h
  dsimp only at h
  repeat' split at h
  · simp at h
  all_goals exact osRename_ne_alreadyExists fs src _ h

/-- C10 (amended): the overwrite guard of every guarded mutating operation
tests only whether the target is a regular file, so for a directory target
the guard never fires: `write_to_file(overwrite=false)`, `move_file` and
`rename_file` never raise `AlreadyExistsError` for a directory target (any
failure is a different OS-level error), but `create_file` still raises
`AlreadyExistsError` for a directory target, because the underlying
`os.mknod` call itself fails with EEXIST. -/
theorem guard_tests_only_regular_file (fs : Fsys) (hwf : WFfs fs) :
    (∀ t d, osIsdir fs t = true →
      write_to_file fs t d false ≠ .error .alreadyExists) ∧
      (∀ src t, osIsdir fs t = true →
        move_file fs src t ≠ .error .alreadyExists) ∧
      (∀ p n, osIsdir fs (ospJoin (ospSplit p).1 n) = true →
        rename_file fs p n ≠ .error .alreadyExists) ∧
      ∀ t, osIsdir fs t = true → create_file fs t = .error .alreadyExists := by
  refine ⟨?_, ?_, ?_, ?_⟩
  · intro t d ht h
    unfold write_to_file at h
    rw [if_neg (by simp [osIsdir_imp_not_osIsfile fs t hwf ht])] at h
    exact osWriteFile_ne_alreadyExists fs t _ h
  · intro src t ht h
    unfold move_file at h
    rw [if_neg (by simp [osIsdir_imp_not_osIsfile fs t hwf ht])] at h
    exact shutilMove_ne_alreadyExists fs src t h
  · intro p n ht h
    unfold rename_file at h
    dsimp only at h
    rw [if_neg (by simp [osIsdir_imp_not_osIsfile fs _ hwf ht])] at h
    exact osRename_ne_alreadyExists fs p _ h
  · intro t ht
    unfold create_file
    rw [if_neg (by simp [osIsdir_imp_not_osIsfile fs t hwf ht])]
    unfold osMknod
    by_cases hr : resolve t = []
    · rw [if_pos (by simp [hr])]
    · rw [if_neg (by simp [hr])]
      unfold osIsdir at ht
      rw [decide_eq_false hr, Bool.false_or] at ht
      cases hl : fsLookup fs (resolve t) with
      | none => simp [hl, entIsDir] at ht
      | some e => cases e with
        | file c => simp [hl, entIsDir] at ht
        | dir => simp [hl]

/-- C10 counterexample: as stated the claim is false on the code: for a
directory target, `create_file` does raise `AlreadyExistsError`, because
`os.mknod` fails with EEXIST on an existing directory. -/
theorem guard_dir_target_counterexample :
    osIsdir [(["d"], FsEntry.dir)] "d" = true ∧
      osIsfile [(["d"], FsEntry.dir)] "d" = false ∧
      create_file [(["d"], FsEntry.dir)] "d" = .error .alreadyExists :=
  ⟨by decide, by decide, by rfl⟩

theorem guard_tests_only_regular_file_witness :
    WFfs [(["d"], FsEntry.dir)] ∧
      osIsdir [(["d"], FsEntry.dir)] "d" = true ∧
      write_to_file [(["d"], FsEntry.dir)] "d" "x" false ≠ .error .alreadyExists ∧
      move_file [(["d"], FsEntry.dir)] "src" "d" ≠ .error .alreadyExists ∧
      create_file [(["d"], FsEntry.dir)] "d" = .error .alreadyExists :=
  ⟨by decide, by decide,
    (guard_tests_only_regular_file [(["d"], FsEntry.dir)] (by decide)).1 "d" "x" (by decide),
    (guard_tests_only_regular_file [(["d"], FsEntry.dir)] (by decide)).2.1 "src" "d"
      (by decide),
    (guard_tests_only_regular_file [(["d"], FsEntry.dir)] (by decide)).2.2.2 "d" (by decide)⟩

/-! Path-string lemmas: how resolution interacts with `os.path.join` and
`os.path.split`. -/

theorem string_mk_data (n : String) : String.mk n.data = n := by
  cases n
  rfl

theorem string_data_ne_nil (n : String) (h : n ≠ "") : n.data ≠ [] := by
  intro e
  apply h
  cases n
  simp at e
  simp [e]

theorem splitPathAux_noslash (cs : List Char) (acc : List Char)
    (h : ∀ c ∈ cs, c ≠ '/') :
    splitPathAux cs acc =
      if (acc.reverse ++ cs).isEmpty then [] else [String.mk (acc.reverse ++ cs)] := by
  induction cs generalizing acc with
  | nil => simp [splitPathAux]
  | cons c rest ih =>
    have hc : c ≠ '/' := h c (by simp)
    rw [splitPathAux, if_neg hc, ih (c :: acc) (fun x hx => h x (List.mem_cons_of_mem c hx))]
    have e1 : (c :: acc).reverse ++ rest = acc.reverse ++ c :: rest := by simp
    rw [e1]

theorem resolve_validName (n : String) (h : ValidName n) : resolve n = [n] := by
  unfold resolve
  rw [splitPathAux_noslash n.data [] (fun c hc e => h.2.2.2 (e ▸ hc))]
  have hne : n.data ≠ [] := string_data_ne_nil n h.1
  simp only [List.reverse_nil, List.nil_append]
  rw [if_neg (by simp [hne]), string_mk_data]

theorem splitPathAux_append_sep (ys : List Char) :
    ∀ (xs : List Char) (acc : List Char),
      splitPathAux (xs ++ '/' :: ys) acc = splitPathAux xs acc ++ splitPathAux ys [] := by
  intro xs
  induction xs with
  | nil => intro acc; simp [splitPathAux]
  | cons c rest ih =>
    intro acc
    by_cases hc : c = '/'
    · subst hc
      rw [List.cons_append, splitPathAux, if_pos rfl, splitPathAux, if_pos rfl, ih,
        List.append_assoc]
    · rw [List.cons_append, splitPathAux, if_neg hc, splitPathAux, if_neg hc, ih]

theorem splitPathAux_trailing_sep (xs : List Char) (acc : List Char) :
    splitPathAux (xs ++ ['/']) acc = splitPathAux xs acc := by
  have e : xs ++ ['/'] = xs ++ '/' :: [] := rfl
  rw [e, splitPathAux_append_sep]
  simp [splitPathAux]

/-- Joining a valid name extends the resolved path by one component. -/
theorem resolve_ospJoin (a n : String) (h : ValidName n) :
    resolve (ospJoin a n) = resolve a ++ [n] := by
  have hnd : n.data ≠ [] := string_data_ne_nil n h.1
  have hnoslash : ∀ c ∈ n.data, c ≠ '/' := fun c hc e => h.2.2.2 (e ▸ hc)
  have hone : splitPathAux n.data [] = [n] := by
    rw [splitPathAux_noslash n.data [] hnoslash]
    simp only [List.reverse_nil, List.nil_append]
    rw [if_neg (by simp [hnd]), string_mk_data]
  have hhead : ¬ n.data.head? = some '/' := by
    cases hd : n.data with
    | nil => simp
    | cons c cs =>
      simp only [List.head?]
      intro he
      injection he with he
      exact hnoslash c (by simp [hd]) he
  unfold ospJoin
  rw [if_neg hhead]
  by_cases ha : a.data = []
  · rw [if_pos ha]
    have h0 : resolve a = [] := by
      unfold resolve
      rw [ha]
      rfl
    rw [h0, resolve_validName n h]
    rfl
  · rw [if_neg ha]
    by_cases hlast : a.data.getLast? = some '/'
    · rw [if_pos hlast]
      have hsplit : a.data = a.data.dropLast ++ ['/'] := by
        conv_lhs => rw [← List.dropLast_append_getLast ha]
        congr 1
        rw [List.getLast?_eq_getLast a.data ha] at hlast
        injection hlast with hlast
        rw [hlast]
      unfold resolve
      rw [String.data_append]
      conv_lhs => rw [hsplit, List.append_assoc, List.singleton_append,
        splitPathAux_append_sep]
      conv_rhs => rw [hsplit, splitPathAux_trailing_sep]
      rw [hone]
    · rw [if_neg hlast]
      unfold resolve
      rw [String.data_append, String.data_append]
      have e1 : ("/" : String).data = ['/'] := rfl
      rw [e1]
      have e2 : a.data ++ ['/'] ++ n.data = a.data ++ '/' :: n.data := by simp
      rw [e2, splitPathAux_append_sep, hone]

theorem takeWhile_all {α : Type} (p : α → Bool) (xs : List α)
    (h : ∀ c ∈ xs, p c = true) : xs.takeWhile p = xs := by
  induction xs with
  | nil => rfl
  | cons c rest ih =>
    rw [List.takeWhile_cons, if_pos (h c (by simp)), ih (fun x hx => h x (by simp [hx]))]

theorem takeWhile_append_stop {α : Type} (p : α → Bool) (xs : List α) (y : α)
    (ys : List α) (hx : ∀ c ∈ xs, p c = true) (hy : p y = false) :
    (xs ++ y :: ys).takeWhile p = xs := by
  rw [List.takeWhile_append, takeWhile_all p xs hx, if_pos rfl, List.takeWhile_cons,
    if_neg (by simp [hy])]
  simp

theorem ospSplit_snd (p : String) :
    (ospSplit p).2 =
      String.mk ((p.data.reverse.takeWhile (fun c => decide (c ≠ '/'))).reverse) := rfl

/-- The tail of `os.path.split` recovers the joined name. -/
theorem ospSplit_tail_ospJoin (a n : String) (h : ValidName n) :
    (ospSplit (ospJoin a n)).2 = n := by
  have hnd : n.data ≠ [] := string_data_ne_nil n h.1
  have hnoslash : ∀ c ∈ n.data, c ≠ '/' := fun c hc e => h.2.2.2 (e ▸ hc)
  have hrev : ∀ c ∈ n.data.reverse, (fun c => decide (c ≠ '/')) c = true := by
    intro c hc
    simp only [decide_eq_true_eq]
    exact hnoslash c (List.mem_reverse.mp hc)
  have hslash : (fun c => decide (c ≠ '/')) '/' = false := by simp
  have hhead : ¬ n.data.head? = some '/' := by
    cases hd : n.data with
    | nil => simp
    | cons c cs =>
      simp only [List.head?]
      intro he
      injection he with he
      exact hnoslash c (by simp [hd]) he
  unfold ospJoin
  rw [if_neg hhead]
  by_cases ha : a.data = []
  · rw [if_pos ha, ospSplit_snd, takeWhile_all _ _ hrev]
    rw [List.reverse_reverse, string_mk_data]
  · rw [if_neg ha]
    by_cases hlast : a.data.getLast? = some '/'
    · rw [if_pos hlast, ospSplit_snd, String.data_append]
      have hsplit : a.data = a.data.dropLast ++ ['/'] := by
        conv_lhs => rw [← List.dropLast_append_getLast ha]
        congr 1
        rw [List.getLast?_eq_getLast a.data ha] at hlast
        injection hlast with hlast
        rw [hlast]
      conv_lhs => rw [hsplit, List.reverse_append, List.reverse_append]
      have e1 : (['/'] : List Char).reverse ++ a.data.dropLast.reverse =
          '/' :: a.data.dropLast.reverse := by simp
      rw [e1, takeWhile_append_stop _ _ _ _ hrev hslash]
      rw [List.reverse_reverse, string_mk_data]
    · rw [if_neg hlast, ospSplit_snd, String.data_append, String.data_append]
      have e1 : ("/" : String).data = ['/'] := rfl
      rw [e1, List.reverse_append, List.reverse_append]
      have e2 : (['/'] : List Char).reverse ++ a.data.reverse =
          '/' :: a.data.reverse := by simp
      rw [e2, takeWhile_append_stop _ _ _ _ hrev hslash]
      rw [List.reverse_reverse, string_mk_data]

theorem ospJoin_data_getLast (a n : String) (hnd : n.data ≠ []) :
    (ospJoin a n).data.getLast? = n.data.getLast? := by
  have happ : ∀ s : String, (s ++ n).data.getLast? = n.data.getLast? := by
    intro s
    rw [String.data_append, List.getLast?_append]
    cases hg : n.data.getLast? with
    | none => exact absurd (List.getLast?_eq_none_iff.mp hg) hnd
    | some c => rfl
  unfold ospJoin
  by_cases h1 : n.data.head? = some '/'
  · rw [if_pos h1]
  · rw [if_neg h1]
    by_cases h2 : a.data = []
    · rw [if_pos h2]
    · rw [if_neg h2]
      by_cases h3 : a.data.getLast? = some '/'
      · rw [if_pos h3, happ]
      · rw [if_neg h3, happ]

/-! Store membership lemmas. -/

theorem fsLookup_mem (fs : Fsys) (k : List String) (e : FsEntry)
    (h : fsLookup fs k = some e) : (k, e) ∈ fs := by
  induction fs with
  | nil => simp [fsLookup] at h
  | cons kv rest ih =>
    rw [fsLookup_cons] at h
    by_cases hk : kv.1 = k
    · rw [if_pos hk] at h
      injection h with h
      exact List.mem_cons.mpr (Or.inl (Prod.ext hk h).symm)
    · rw [if_neg hk] at h
      exact List.mem_cons_of_mem kv (ih h)

theorem mem_fsLookup (fs : Fsys) (k : List String) (e : FsEntry)
    (hnd : keysNodup fs) (h : (k, e) ∈ fs) : fsLookup fs k = some e := by
  induction fs with
  | nil => simp at h
  | cons kv rest ih =>
    unfold keysNodup at hnd
    rw [List.map_cons, List.nodup_cons] at hnd
    rcases List.mem_cons.mp h with h1 | h1
    · rw [← h1, fsLookup_cons, if_pos rfl]
    · rw [fsLookup_cons, if_neg ?_]
      · exact ih hnd.2 h1
      · intro he
        apply hnd.1
        rw [he]
        exact List.mem_map.mpr ⟨(k, e), h1, rfl⟩

theorem childEntries_mem (fs : Fsys) (q : List String) (n : String) (e : FsEntry) :
    (n, e) ∈ childEntries fs q ↔ (q ++ [n], e) ∈ fs := by
  unfold childEntries
  rw [List.mem_filterMap]
  constructor
  · rintro ⟨kv, hm, hmatch⟩
    cases hg : kv.1.getLast? with
    | none => rw [hg] at hmatch; simp at hmatch
    | some n1 =>
      rw [hg] at hmatch
      dsimp only at hmatch
      by_cases hd : kv.1.dropLast = q
      · rw [if_pos hd] at hmatch
        injection hmatch with hmatch
        have hne : kv.1 ≠ [] := by
          intro hnil
          rw [hnil] at hg
          simp at hg
        have hkv : kv.1 = q ++ [n1] := by
          rw [← hd]
          conv_lhs => rw [← List.dropLast_append_getLast hne]
          congr 1
          rw [List.getLast?_eq_getLast kv.1 hne] at hg
          injection hg with hg
          rw [hg]
        have hn : n1 = n := congrArg Prod.fst hmatch
        have he : kv.2 = e := congrArg Prod.snd hmatch
        have : kv = (q ++ [n], e) := by
          rw [Prod.ext_iff]
          exact ⟨by rw [hkv, hn], he⟩
        rw [← this]
        exact hm
      · rw [if_neg hd] at hmatch
        simp at hmatch
  · intro hm
    refine ⟨(q ++ [n], e), hm, ?_⟩
    simp [List.getLast?_concat, List.dropLast_concat]

theorem string_data_inj (s t : String) (h : s.data = t.data) : s = t := by
  have h2 := congrArg String.mk h
  rw [string_mk_data, string_mk_data] at h2
  exact h2

theorem validName_of_wf (fs : Fsys) (hwf : WFfs fs) (q : List String) (n : String)
    (e : FsEntry) (hm : (q ++ [n], e) ∈ fs) : ValidName n :=
  (hwf.2 _ hm).2.1 n (by simp)

/-- C8: `list_dir_folders(path, full_path=true)` returns exactly the
immediate children of `path` that are directories, each with a trailing
path separator appended, while `list_dir_files` returns file entries
without one. -/
theorem list_dir_folders_trailing_sep (fs : Fsys) (p : String) (l fl : List String)
    (hwf : WFfs fs)
    (hl : list_dir_folders fs p true = .ok l)
    (hfl : list_dir_files fs p true = .ok fl) :
    (∀ s ∈ l, s.data.getLast? = some '/') ∧
      (∀ n, ValidName n →
        ((ospJoin p n ++ "/") ∈ l ↔ fsLookup fs (resolve p ++ [n]) = some .dir)) ∧
      ∀ s ∈ fl, ¬ s.data.getLast? = some '/' := by
  unfold list_dir_folders at hl
  unfold list_dir_files at hfl
  unfold osListdir at hl hfl
  by_cases hdir : osIsdir fs p = true
  · rw [if_pos hdir] at hl hfl
    dsimp only at hl hfl
    injection hl with hl
    injection hfl with hfl
    have hval : ∀ n ∈ (childEntries fs (resolve p)).map Prod.fst, ValidName n := by
      intro n hn
      rcases List.mem_map.mp hn with ⟨⟨n1, e⟩, hm, hfst⟩
      cases hfst
      exact validName_of_wf fs hwf (resolve p) n1 e ((childEntries_mem _ _ _ _).mp hm)
    refine ⟨?_, ?_, ?_⟩
    · intro s hs
      rw [← hl] at hs
      rcases List.mem_filterMap.mp hs with ⟨n, hn, hg⟩
      by_cases hc : osIsdir fs (ospJoin p n) = true
      · rw [if_pos hc, if_pos rfl] at hg
        injection hg with hg
        rw [← hg, String.data_append]
        have e1 : ("/" : String).data = ['/'] := rfl
        rw [e1, List.getLast?_concat]
      · rw [if_neg hc] at hg
        simp at hg
    · intro n hvn
      constructor
      · intro hmem
        rw [← hl] at hmem
        rcases List.mem_filterMap.mp hmem with ⟨n1, hn1, hg⟩
        by_cases hc : osIsdir fs (ospJoin p n1) = true
        · rw [if_pos hc, if_pos rfl] at hg
          injection hg with hg
          have hd : (ospJoin p n1).data = (ospJoin p n).data := by
            have := congrArg String.data hg
            rw [String.data_append, String.data_append] at this
            have e1 : ("/" : String).data = ['/'] := rfl
            rw [e1] at this
            exact (List.append_left_inj ['/']).mp this
          have hjoin : ospJoin p n1 = ospJoin p n := string_data_inj _ _ hd
          have hn1n : n1 = n := by
            have t1 := ospSplit_tail_ospJoin p n1 (hval n1 hn1)
            have t2 := ospSplit_tail_ospJoin p n hvn
            rw [hjoin] at t1
            rw [t2] at t1
            exact t1.symm
          subst hn1n
          unfold osIsdir at hc
          rw [resolve_ospJoin p n1 (hval n1 hn1)] at hc
          rw [decide_eq_false (by simp)] at hc
          rw [Bool.false_or] at hc
          cases hlu : fsLookup fs (resolve p ++ [n1]) with
          | none => rw [hlu] at hc; simp [entIsDir] at hc
          | some e =>
            cases e with
            | file c => rw [hlu] at hc; simp [entIsDir] at hc
            | dir => rfl
        · rw [if_neg hc] at hg
          simp at hg
      · intro hlu
        rw [← hl]
        apply List.mem_filterMap.mpr
        refine ⟨n, ?_, ?_⟩
        · exact List.mem_map.mpr ⟨(n, .dir), (childEntries_mem _ _ _ _).mpr
            (fsLookup_mem _ _ _ hlu), rfl⟩
        · have hc : osIsdir fs (ospJoin p n) = true := by
            unfold osIsdir
            rw [resolve_ospJoin p n hvn, hlu]
            simp [entIsDir]
          rw [if_pos hc, if_pos rfl]
    · intro s hs
      rw [← hfl] at hs
      rcases List.mem_filterMap.mp hs with ⟨n, hn, hg⟩
      by_cases hc : osIsfile fs (ospJoin p n) = true
      · rw [if_pos hc, if_pos rfl] at hg
        injection hg with hg
        have hvn := hval n hn
        have hnd : n.data ≠ [] := string_data_ne_nil n hvn.1
        rw [← hg, ospJoin_data_getLast p n hnd]
        rw [List.getLast?_eq_getLast n.data hnd]
        intro he
        injection he with he
        exact hvn.2.2.2 (he ▸ List.getLast_mem hnd)
      · rw [if_neg hc] at hg
        simp at hg
  · rw [if_neg hdir] at hl
    exact absurd hl (by simp)

theorem list_dir_folders_trailing_sep_witness :
    WFfs [(["r"], FsEntry.dir), (["r", "s"], FsEntry.dir), (["r", "f"], FsEntry.file [1])] ∧
      list_dir_folders
          [(["r"], FsEntry.dir), (["r", "s"], FsEntry.dir), (["r", "f"], FsEntry.file [1])]
          "r" true = .ok ["r/s/"] ∧
      list_dir_files
          [(["r"], FsEntry.dir), (["r", "s"], FsEntry.dir), (["r", "f"], FsEntry.file [1])]
          "r" true = .ok ["r/f"] ∧
      (∀ s ∈ ["r/s/"], s.data.getLast? = some '/') ∧
      ((ospJoin "r" "s" ++ "/") ∈ ["r/s/"] ↔
        fsLookup [(["r"], FsEntry.dir), (["r", "s"], FsEntry.dir), (["r", "f"], FsEntry.file [1])]
          (resolve "r" ++ ["s"]) = some .dir) :=
  ⟨by decide, by rfl, by rfl,
    (list_dir_folders_trailing_sep
      [(["r"], FsEntry.dir), (["r", "s"], FsEntry.dir), (["r", "f"], FsEntry.file [1])]
      "r" ["r/s/"] ["r/f"] (by decide) (by rfl) (by rfl)).1,
    (list_dir_folders_trailing_sep
      [(["r"], FsEntry.dir), (["r", "s"], FsEntry.dir), (["r", "f"], FsEntry.file [1])]
      "r" ["r/s/"] ["r/f"] (by decide) (by rfl) (by rfl)).2.1 "s" (by decide)⟩

/-! The utf-8 round trip. -/

theorem char_toNat_valid (c : Char) :
    c.toNat < 0xD800 ∨ (0xE000 ≤ c.toNat ∧ c.toNat < 0x110000) := by
  have h : c.val.toNat < 55296 ∨ (57343 < c.val.toNat ∧ c.val.toNat < 1114112) := c.valid
  have he : c.toNat = c.val.toNat := rfl
  rw [he]
  omega

theorem headD_cons_256 (x : Nat) (l : List Nat) : (x :: l).headD 256 = x := rfl

theorem drop1_cons (x : Nat) (l : List Nat) : (x :: l).drop 1 = l := rfl

theorem drop2_cons (x y : Nat) (l : List Nat) : (x :: y :: l).drop 2 = l := rfl

theorem drop3_cons (x y z : Nat) (l : List Nat) : (x :: y :: z :: l).drop 3 = l := rfl

theorem utf8DecodeStrict_encChar (c : Nat)
    (h : c < 0xD800 ∨ (0xE000 ≤ c ∧ c < 0x110000)) (rest : List Nat) :
    utf8DecodeStrict (encChar c ++ rest) =
      Option.map (fun cs => c :: cs) (utf8DecodeStrict rest) := by
  by_cases h1 : c < 0x80
  · rw [encChar, if_pos h1]
    have e : ([c] : List Nat) ++ rest = c :: rest := rfl
    rw [e]
    simp only [utf8DecodeStrict]
    rw [if_pos h1]
  · by_cases h2 : c < 0x800
    · rw [encChar, if_neg h1, if_pos h2]
      have e : ([0xC0 + c / 64, 0x80 + c % 64] : List Nat) ++ rest =
          (0xC0 + c / 64) :: (0x80 + c % 64) :: rest := rfl
      rw [e]
      simp only [utf8DecodeStrict]
      simp only [headD_cons_256, drop1_cons, drop2_cons, drop3_cons]
      rw [if_neg (by omega), if_neg (by omega), if_pos (by omega)]
      unfold dec2body
      rw [show isCont (0x80 + c % 64) = true from by
        simp only [isCont, Bool.and_eq_true, decide_eq_true_eq]
        omega]
      rw [if_pos rfl]
      rw [show (0xC0 + c / 64 - 0xC0) * 64 + (0x80 + c % 64 - 0x80) = c from by omega]
    · by_cases h3 : c < 0x10000
      · rw [encChar, if_neg h1, if_neg h2, if_pos h3]
        have e : ([0xE0 + c / 4096, 0x80 + c / 64 % 64, 0x80 + c % 64] : List Nat) ++ rest =
            (0xE0 + c / 4096) :: (0x80 + c / 64 % 64) :: (0x80 + c % 64) :: rest := rfl
        rw [e]
        simp only [utf8DecodeStrict]
        simp only [headD_cons_256, drop1_cons, drop2_cons, drop3_cons]
        rw [if_neg (by omega), if_neg (by omega), if_neg (by omega), if_pos (by omega)]
        unfold dec3body
        rw [show (isCont (0x80 + c / 64 % 64) && isCont (0x80 + c % 64)) = true from by
          simp only [isCont, Bool.and_eq_true, decide_eq_true_eq]
          omega]
        rw [if_pos rfl]
        rw [show (0xE0 + c / 4096 - 0xE0) * 4096 + (0x80 + c / 64 % 64 - 0x80) * 64 +
          (0x80 + c % 64 - 0x80) = c from by omega]
        rw [if_neg (by omega)]
      · have h4 : c < 0x110000 := by omega
        rw [encChar, if_neg h1, if_neg h2, if_neg h3]
        have e : ([0xF0 + c / 0x40000, 0x80 + c / 4096 % 64, 0x80 + c / 64 % 64,
            0x80 + c % 64] : List Nat) ++ rest =
            (0xF0 + c / 0x40000) :: (0x80 + c / 4096 % 64) :: (0x80 + c / 64 % 64) ::
              (0x80 + c % 64) :: rest := rfl
        rw [e]
        simp only [utf8DecodeStrict]
        simp only [headD_cons_256, drop1_cons, drop2_cons, drop3_cons]
        rw [if_neg (by omega), if_neg (by omega), if_neg (by omega), if_neg (by omega),
          if_pos (by omega)]
        unfold dec4body
        rw [show (isCont (0x80 + c / 4096 % 64) && isCont (0x80 + c / 64 % 64) &&
            isCont (0x80 + c % 64)) = true from by
          simp only [isCont, Bool.and_eq_true, decide_eq_true_eq]
          omega]
        rw [if_pos rfl]
        rw [show (0xF0 + c / 0x40000 - 0xF0) * 0x40000 + (0x80 + c / 4096 % 64 - 0x80) * 4096 +
          (0x80 + c / 64 % 64 - 0x80) * 64 + (0x80 + c % 64 - 0x80) = c from by omega]
        rw [if_neg (by omega)]

theorem utf8Encode_cons (c : Char) (s : List Char) :
    utf8Encode (c :: s) = encChar c.toNat ++ utf8Encode s := by
  simp [utf8Encode, utf8EncodeCps]

theorem utf8_roundtrip (s : List Char) :
    utf8DecodeStrict (utf8Encode s) = some (s.map Char.toNat) := by
  induction s with
  | nil => simp [utf8Encode, utf8EncodeCps, utf8DecodeStrict]
  | cons c rest ih =>
    rw [utf8Encode_cons, utf8DecodeStrict_encChar c.toNat (char_toNat_valid c) _, ih]
    rfl

theorem cpsToChars_map_toNat (s : List Char) : cpsToChars (s.map Char.toNat) = s := by
  simp [cpsToChars, List.map_map, Function.comp_def, Char.ofNat_toNat]

theorem univNewlines_no_cr (cs : List Char) (h : ∀ c ∈ cs, c ≠ '\r') :
    univNewlines cs = cs := by
  induction cs with
  | nil => rfl
  | cons c rest ih =>
    conv_lhs => rw [univNewlines.eq_def]
    dsimp only
    rw [if_neg (h c (by simp)), ih (fun x hx => h x (by simp [hx]))]

/-- C4 (amended): `write_to_file(p, data)` followed by `read_file(p)`
returns exactly `data` for any text `data` not containing
encoding-incompatible characters, provided `data` also contains no carriage
return: text-mode reading translates `\r` and `\r\n` to `\n` (universal
newlines), so data containing `\r` does not round-trip. -/
theorem write_read_roundtrip (fs fs1 : Fsys) (p data : String)
    (hw : write_to_file fs p data true = .ok fs1)
    (hcr : ∀ c ∈ data.data, c ≠ '\r') :
    read_file fs1 p = .ok data := by
  have hok : osWriteFile fs p (utf8Encode data.data) = .ok fs1 := by
    unfold write_to_file at hw
    rw [if_neg (by simp)] at hw
    exact hw
  have hlu := (osWriteFile_ok fs fs1 p _ hok).1
  unfold read_file
  rw [hlu]
  dsimp only
  rw [show utf8Encode data.data = utf8EncodeCps (data.data.map Char.toNat) from rfl]
  rw [show utf8EncodeCps (data.data.map Char.toNat) = utf8Encode data.data from rfl]
  rw [utf8_roundtrip data.data]
  dsimp only
  rw [cpsToChars_map_toNat, univNewlines_no_cr data.data hcr, string_mk_data]

/-- C4 counterexample: the claim as stated is false on the code: writing
`"a\rb"` (no encoding-incompatible characters) and reading it back yields
`"a\nb"`, because text-mode reads apply universal-newline translation. -/
theorem write_read_roundtrip_counterexample :
    write_to_file [] "f" "a\rb" true = .ok [(["f"], FsEntry.file [97, 13, 98])] ∧
      read_file [(["f"], FsEntry.file [97, 13, 98])] "f" = .ok "a\nb" ∧
      ("a\nb" : String) ≠ "a\rb" := by
  refine ⟨rfl, ?_, by decide⟩
  have h1 : fsLookup [(["f"], FsEntry.file [97, 13, 98])] (resolve "f") =
      some (.file [97, 13, 98]) := rfl
  unfold read_file
  rw [h1]
  dsimp only
  have h2 : utf8DecodeStrict [97, 13, 98] = some [97, 13, 98] := by
    simp [utf8DecodeStrict]
  rw [h2]
  dsimp only
  have h3 : cpsToChars [97, 13, 98] = ['a', '\r', 'b'] := rfl
  rw [h3]
  have h4 : univNewlines ['a', '\r', 'b'] = ['a', '\n', 'b'] := rfl
  rw [h4]

theorem write_read_roundtrip_witness :
    write_to_file [] "f" "hi" true = .ok [(["f"], FsEntry.file [104, 105])] ∧
      (∀ c ∈ ("hi" : String).data, c ≠ '\r') ∧
      read_file [(["f"], FsEntry.file [104, 105])] "f" = .ok "hi" :=
  ⟨rfl, by decide,
    write_read_roundtrip [] [(["f"], FsEntry.file [104, 105])] "f" "hi" rfl (by decide)⟩

/-- C5: `fix_encoding(path, read_as, write_as, remove_chars)` reads the
file decoding with `read_as` while dropping undecodable byte sequences
instead of raising, removes every occurrence of each literal substring
listed in `remove_chars` from the decoded text, and rewrites the whole
file in place encoded as `write_as`; in particular a file containing
`"café\x00broken"` with `remove_chars=['\x00']` ends up containing
`"cafébroken"`, and an undecodable `0xFF` byte is dropped rather than
raising. -/
theorem fix_encoding_spec :
    (∀ (fs : Fsys) (p : String) (bs : List Nat) (rcs : List String),
      resolve p ≠ [] → fsLookup fs (resolve p) = some (.file bs) →
        fix_encoding fs p .utf8 .utf8 (some rcs) =
          .ok (fs.map (fun kv =>
            if kv.1 = resolve p then
              (resolve p, FsEntry.file (encodeWith .utf8
                (rcs.foldl (fun t rc => removeAll rc.data t)
                  (univNewlines (cpsToChars (decodeWith .utf8 bs))))))
            else kv))) ∧
      (∀ (t : List Char) (c : Char), c ∉ removeAll [c] t) ∧
      fix_encoding
          [(["f"], FsEntry.file [99, 97, 102, 195, 169, 0, 98, 114, 111, 107, 101, 110])]
          "f" .utf8 .utf8 (some ["\x00"]) =
        .ok [(["f"], FsEntry.file [99, 97, 102, 195, 169, 98, 114, 111, 107, 101, 110])] ∧
      fix_encoding [(["f"], FsEntry.file [97, 255, 98])] "f" .utf8 .utf8 (some []) =
        .ok [(["f"], FsEntry.file [97, 98])] := by
  have hgen : ∀ (fs : Fsys) (p : String) (bs : List Nat) (rcs : List String),
      resolve p ≠ [] → fsLookup fs (resolve p) = some (.file bs) →
        fix_encoding fs p .utf8 .utf8 (some rcs) =
          .ok (fs.map (fun kv =>
            if kv.1 = resolve p then
              (resolve p, FsEntry.file (encodeWith .utf8
                (rcs.foldl (fun t rc => removeAll rc.data t)
                  (univNewlines (cpsToChars (decodeWith .utf8 bs))))))
            else kv)) := by
    intro fs p bs rcs hne hlu
    unfold fix_encoding
    rw [hlu]
    dsimp only
    unfold osWriteFile
    rw [if_neg (by simp [hne]), hlu]
  refine ⟨hgen, ?_, ?_, ?_⟩
  · intro t c
    induction t with
    | nil => simp [removeAll]
    | cons x rest ih =>
      by_cases hx : x = c
      · subst hx
        rw [removeAll, dif_pos ⟨by simp, by simp⟩]
        exact ih
      · rw [removeAll, dif_neg ?_]
        · simp only [List.mem_cons]
          intro hor
          rcases hor with he | hm
          · exact hx he.symm
          · exact ih hm
        · intro hand
          have h2 := hand.2
          simp at h2
          exact hx h2
  · rw [hgen [(["f"], FsEntry.file [99, 97, 102, 195, 169, 0, 98, 114, 111, 107, 101, 110])]
      "f" [99, 97, 102, 195, 169, 0, 98, 114, 111, 107, 101, 110] ["\x00"]
      (by decide) rfl]
    simp +decide [decodeWith, encodeWith, utf8DecodeIgnore, ign2body, ign3body, ign4body,
      isCont, cpsToChars, univNewlines, removeAll, utf8Encode, utf8EncodeCps, encChar]
  · rw [hgen [(["f"], FsEntry.file [97, 255, 98])] "f" [97, 255, 98] []
      (by decide) rfl]
    simp +decide [decodeWith, encodeWith, utf8DecodeIgnore, ign2body, ign3body, ign4body,
      isCont, cpsToChars, univNewlines, removeAll, utf8Encode, utf8EncodeCps, encChar]

theorem fix_encoding_spec_witness :
    resolve "g" ≠ [] ∧
      fsLookup [(["g"], FsEntry.file [104])] (resolve "g") = some (.file [104]) ∧
      fix_encoding [(["g"], FsEntry.file [104])] "g" .utf8 .utf8 (some []) =
        .ok ([(["g"], FsEntry.file [104])].map (fun kv =>
          if kv.1 = resolve "g" then
            (resolve "g", FsEntry.file (encodeWith .utf8
              (([] : List String).foldl (fun t rc => removeAll rc.data t)
                (univNewlines (cpsToChars (decodeWith .utf8 [104]))))))
          else kv)) ∧
      ('a' : Char) ∉ removeAll ['a'] ['b', 'a', 'a', 'c'] :=
  ⟨by decide, rfl,
    fix_encoding_spec.1 [(["g"], FsEntry.file [104])] "g" [104] [] (by decide) rfl,
    fix_encoding_spec.2.1 ['b', 'a', 'a', 'c'] 'a'⟩

/-! Key-prefix lemmas and the walk correspondence. -/

theorem keyUnder_length (p k : List String) (h : keyUnder p k) : p.length ≤ k.length := by
  unfold keyUnder at h
  have := congrArg List.length h
  simp only [List.length_take] at this
  omega

theorem strictUnder_length (p k : List String) (h : strictUnder p k) :
    p.length < k.length := by
  rcases h with ⟨h1, h2⟩
  have hle := keyUnder_length p k h1
  rcases Nat.lt_or_ge p.length k.length with hlt | hge
  · exact hlt
  · exfalso
    apply h2
    have hl : p.length = k.length := le_antisymm hle hge
    unfold keyUnder at h1
    rw [← h1, hl, List.take_length]

theorem keyUnder_append (p : List String) (x : List String) :
    keyUnder p (p ++ x) := by
  unfold keyUnder
  exact List.take_left p x

theorem keyUnder_refl (p : List String) : keyUnder p p := by
  unfold keyUnder
  rw [List.take_length]

theorem keyUnder_trans (p q k : List String) (h1 : keyUnder p q) (h2 : keyUnder q k) :
    keyUnder p k := by
  unfold keyUnder at h1 h2 ⊢
  have hpq := keyUnder_length p q h1
  have hqk := keyUnder_length q k h2
  calc k.take p.length = (k.take q.length).take p.length := by
        rw [List.take_take, Nat.min_eq_left hpq]
    _ = q.take p.length := by rw [h2]
    _ = p := h1

theorem keyUnder_eq_append (p k : List String) (h : keyUnder p k) :
    k = p ++ k.drop p.length := by
  conv_lhs => rw [← List.take_append_drop p.length k]
  unfold keyUnder at h
  rw [h]

theorem keyUnder_dropLast (p k : List String) (h1 : keyUnder p k) (h2 : p ≠ k) :
    keyUnder p k.dropLast := by
  have hlt : p.length < k.length := by
    have := keyUnder_length p k h1
    rcases Nat.lt_or_ge p.length k.length with hlt | hge
    · exact hlt
    · exfalso
      apply h2
      have hl : p.length = k.length := le_antisymm this hge
      unfold keyUnder at h1
      rw [← h1, hl, List.take_length]
  unfold keyUnder at h1 ⊢
  rw [List.dropLast_eq_take, List.take_take, Nat.min_eq_left (by omega)]
  exact h1

/-- Every nonempty proper prefix of a stored key is itself stored as a
directory. -/
theorem prefix_is_dir (fs : Fsys) (hwf : WFfs fs) :
    ∀ (n : Nat) (k : List String) (e : FsEntry), k.length ≤ n → (k, e) ∈ fs →
      ∀ j, j ≠ [] → keyUnder j k → j ≠ k → fsLookup fs j = some .dir := by
  intro n
  induction n with
  | zero =>
    intro k e hlen hm j hne hu hneq
    have := (hwf.2 (k, e) hm).1
    have : k.length ≠ 0 := fun h0 => this (List.eq_nil_of_length_eq_zero h0)
    omega
  | succ n ih =>
    intro k e hlen hm j hne hu hneq
    have hkne : k ≠ [] := (hwf.2 (k, e) hm).1
    have hpo : parentOk fs k := (hwf.2 (k, e) hm).2.2
    by_cases hj : j = k.dropLast
    · rcases hpo with hp1 | hp2
      · exact absurd (hj.trans hp1) hne
      · rw [hj]
        exact hp2
    · have hu2 : keyUnder j k.dropLast := keyUnder_dropLast j k hu hneq
      rcases hpo with hp1 | hp2
      · exfalso
        apply hne
        have := keyUnder_length j k.dropLast hu2
        rw [hp1] at this
        simp at this
        exact this
      · have hmem : (k.dropLast, FsEntry.dir) ∈ fs := fsLookup_mem fs _ _ hp2
        have hdl : k.dropLast.length ≤ n := by
          rw [List.dropLast_eq_take, List.length_take]
          have : k.length ≠ 0 := fun h0 => hkne (List.eq_nil_of_length_eq_zero h0)
          omega
        exact ih k.dropLast .dir hdl hmem j hne hu2 hj

theorem childEntries_names_nodup (fs : Fsys) (p : List String) (hnd : keysNodup fs) :
    ((childEntries fs p).map Prod.fst).Nodup := by
  induction fs with
  | nil => simp [childEntries]
  | cons kv rest ih =>
    unfold keysNodup at hnd
    rw [List.map_cons, List.nodup_cons] at hnd
    unfold childEntries
    rw [List.filterMap_cons]
    cases hmt : (match kv.1.getLast? with
      | some n => if kv.1.dropLast = p then some (n, kv.2) else none
      | none => none : Option (String × FsEntry)) with
    | none => exact ih hnd.2
    | some ne =>
      rw [List.map_cons, List.nodup_cons]
      refine ⟨?_, ih hnd.2⟩
      intro hmem
      rcases List.mem_map.mp hmem with ⟨⟨n2, e2⟩, hm2, hf2⟩
      have hkey : kv.1 = p ++ [ne.1] := by
        cases hg : kv.1.getLast? with
        | none => rw [hg] at hmt; simp at hmt
        | some n1 =>
          rw [hg] at hmt
          dsimp only at hmt
          by_cases hd : kv.1.dropLast = p
          · rw [if_pos hd] at hmt
            injection hmt with hmt
            have hne2 : kv.1 ≠ [] := by
              intro hnil
              rw [hnil] at hg
              simp at hg
            rw [← hd]
            conv_lhs => rw [← List.dropLast_append_getLast hne2]
            congr 1
            rw [List.getLast?_eq_getLast kv.1 hne2] at hg
            injection hg with hg
            rw [hg, ← hmt]
          · rw [if_neg hd] at hmt
            simp at hmt
      have hm3 : (p ++ [ne.1], e2) ∈ rest := by
        have hthis := (childEntries_mem rest p n2 e2).mp hm2
        have hf3 : n2 = ne.1 := hf2
        rw [hf3] at hthis
        exact hthis
      apply hnd.1
      rw [hkey]
      exact List.mem_map.mpr ⟨(p ++ [ne.1], e2), hm3, rfl⟩

theorem filter_split_perm {α : Type} (L : List α) (P Q : α → Bool) :
    List.Perm (L.filter P)
      (L.filter (fun a => P a && Q a) ++ L.filter (fun a => P a && !Q a)) := by
  induction L with
  | nil => simp
  | cons a L2 ih =>
    by_cases hp : P a = true
    · by_cases hq : Q a = true
      · rw [List.filter_cons_of_pos hp, List.filter_cons_of_pos (by simp [hp, hq]),
          List.filter_cons_of_neg (by simp [hp, hq]), List.cons_append]
        exact ih.cons a
      · rw [List.filter_cons_of_pos hp, List.filter_cons_of_neg (by simp [hp, hq]),
          List.filter_cons_of_pos (by simp [hp, hq])]
        exact (ih.cons a).trans List.perm_middle.symm
    · rw [List.filter_cons_of_neg (by simp [hp]), List.filter_cons_of_neg (by simp [hp]),
        List.filter_cons_of_neg (by simp [hp])]
      exact ih

theorem flatMap_congr_fn {α β : Type} (l : List α) (f g : α → List β)
    (h : ∀ x ∈ l, f x = g x) : l.flatMap f = l.flatMap g := by
  induction l with
  | nil => rfl
  | cons x l2 ih =>
    rw [List.flatMap_cons, List.flatMap_cons, h x (by simp),
      ih (fun y hy => h y (by simp [hy]))]

theorem flatMap_perm_fn {α β : Type} (l : List α) (f g : α → List β)
    (h : ∀ x ∈ l, List.Perm (f x) (g x)) : List.Perm (l.flatMap f) (l.flatMap g) := by
  induction l with
  | nil => exact List.Perm.refl []
  | cons x l2 ih =>
    rw [List.flatMap_cons, List.flatMap_cons]
    exact (h x (by simp)).append (ih (fun y hy => h y (by simp [hy])))

theorem flatMap_pull_perm {α β : Type} [DecidableEq β] (a : α) (tags : List β)
    (f g : β → List α) (t0 : β) (htags : tags.Nodup) (ht0 : t0 ∈ tags)
    (hf0 : f t0 = a :: g t0) (hfr : ∀ t ∈ tags, t ≠ t0 → f t = g t) :
    List.Perm (tags.flatMap f) (a :: tags.flatMap g) := by
  induction tags with
  | nil => simp at ht0
  | cons t ts ih =>
    rw [List.nodup_cons] at htags
    rw [List.flatMap_cons, List.flatMap_cons]
    by_cases hteq : t = t0
    · subst hteq
      have hrest : ts.flatMap f = ts.flatMap g :=
        flatMap_congr_fn ts f g (fun t2 hm2 =>
          hfr t2 (by simp [hm2]) (fun he => htags.1 (he ▸ hm2)))
      rw [hf0, hrest, List.cons_append]
    · rw [hfr t (by simp) hteq]
      have ht0ts : t0 ∈ ts := by
        rcases List.mem_cons.mp ht0 with he | hm
        · exact absurd he.symm hteq
        · exact hm
      have hperm := ih htags.2 ht0ts (fun t2 hm2 hne2 => hfr t2 (by simp [hm2]) hne2)
      exact ((List.Perm.append_left (g t) hperm).trans List.perm_middle)

theorem filter_tags_perm {α β : Type} [DecidableEq β] (L : List α) (tags : List β)
    (P : α → Bool) (Q : β → α → Bool) (htags : tags.Nodup)
    (hQP : ∀ t ∈ tags, ∀ a ∈ L, Q t a = true → P a = true)
    (hPex : ∀ a ∈ L, P a = true → ∃ t ∈ tags, Q t a = true)
    (huniq : ∀ a, ∀ t1 ∈ tags, ∀ t2 ∈ tags, Q t1 a = true → Q t2 a = true → t1 = t2) :
    List.Perm (L.filter P) (tags.flatMap (fun t => L.filter (Q t))) := by
  induction L with
  | nil =>
    rw [show tags.flatMap (fun t => List.filter (Q t) []) = [] from by
      rw [flatMap_congr_fn tags _ (fun t => ([] : List α))
        (fun t _ => List.filter_nil (Q t))]
      simp]
    simp
  | cons a L2 ih =>
    have hQP2 : ∀ t ∈ tags, ∀ x ∈ L2, Q t x = true → P x = true :=
      fun t ht x hx => hQP t ht x (List.mem_cons_of_mem a hx)
    have hPex2 : ∀ x ∈ L2, P x = true → ∃ t ∈ tags, Q t x = true :=
      fun x hx => hPex x (List.mem_cons_of_mem a hx)
    have hih := ih hQP2 hPex2
    by_cases hp : P a = true
    · obtain ⟨t0, ht0, hq0⟩ := hPex a (by simp) hp
      have hf0 : List.filter (Q t0) (a :: L2) = a :: List.filter (Q t0) L2 :=
        List.filter_cons_of_pos hq0
      have hfr : ∀ t ∈ tags, t ≠ t0 →
          List.filter (Q t) (a :: L2) = List.filter (Q t) L2 := by
        intro t hm hne
        apply List.filter_cons_of_neg
        intro hqt
        exact hne (huniq a t hm t0 ht0 hqt hq0)
      have hpull := flatMap_pull_perm a tags (fun t => List.filter (Q t) (a :: L2))
        (fun t => List.filter (Q t) L2) t0 htags ht0 hf0 hfr
      rw [List.filter_cons_of_pos hp]
      exact ((hih.cons a).trans hpull.symm)
    · rw [List.filter_cons_of_neg hp]
      rw [flatMap_congr_fn tags (fun t => List.filter (Q t) (a :: L2))
        (fun t => List.filter (Q t) L2) ?_]
      · exact hih
      · intro t ht
        apply List.filter_cons_of_neg
        intro hqt
        exact hp (hQP t ht a (by simp) hqt)

theorem dirChildNames_nodup (fs : Fsys) (p : List String) (hnd : keysNodup fs) :
    (dirChildNames fs p).Nodup := by
  unfold dirChildNames
  exact ((List.filter_sublist (childEntries fs p)).map Prod.fst).nodup
    (childEntries_names_nodup fs p hnd)

theorem mem_dirChildNames (fs : Fsys) (p : List String) (d : String)
    (_hnd : keysNodup fs) :
    d ∈ dirChildNames fs p ↔ (p ++ [d], FsEntry.dir) ∈ fs := by
  unfold dirChildNames
  rw [List.mem_map]
  constructor
  · rintro ⟨⟨n, e⟩, hm, hf⟩
    rcases List.mem_filter.mp hm with ⟨hm2, hdir⟩
    cases e with
    | file c => simp [FsEntry.isFile, FsEntry.isDir] at hdir
    | dir =>
      have hf2 : n = d := hf
      rw [← hf2]
      exact (childEntries_mem fs p n .dir).mp hm2
  · intro hm
    refine ⟨(d, .dir), List.mem_filter.mpr ⟨(childEntries_mem fs p d .dir).mpr hm, rfl⟩, rfl⟩

/-- All files strictly below `p` split into the file children of `p` and,
for each subdirectory `d`, the files strictly below `p ++ [d]`. -/
theorem fileKeys_decomp (fs : Fsys) (p : List String) (hwf : WFfs fs) :
    List.Perm (fileKeysUnder fs p)
      (fs.filter (fun kv =>
          decide (kv.1.dropLast = p) && decide (kv.1 ≠ []) && kv.2.isFile) ++
        (dirChildNames fs p).flatMap (fun d => fileKeysUnder fs (p ++ [d]))) := by
  have hsplit := filter_split_perm fs
    (fun kv => decide (strictUnder p kv.1) && kv.2.isFile)
    (fun kv => decide (kv.1.length = p.length + 1))
  have hstep2 : fs.filter (fun kv =>
      (decide (strictUnder p kv.1) && kv.2.isFile) &&
        decide (kv.1.length = p.length + 1)) =
      fs.filter (fun kv =>
        decide (kv.1.dropLast = p) && decide (kv.1 ≠ []) && kv.2.isFile) := by
    apply List.filter_congr
    intro kv hm
    rw [Bool.eq_iff_iff]
    simp only [Bool.and_eq_true, decide_eq_true_eq]
    constructor
    · rintro ⟨⟨hsu, hfile⟩, hlen⟩
      have happ := keyUnder_eq_append p kv.1 hsu.1
      have hdroplen : (kv.1.drop p.length).length = 1 := by
        rw [List.length_drop]
        omega
      rcases List.length_eq_one.mp hdroplen with ⟨x, hx⟩
      rw [hx] at happ
      refine ⟨⟨by rw [happ, List.dropLast_concat], by rw [happ]; simp⟩, hfile⟩
    · rintro ⟨⟨hdl, hne⟩, hfile⟩
      have happ : kv.1 = p ++ [kv.1.getLast hne] := by
        rw [← hdl]
        conv_lhs => rw [← List.dropLast_append_getLast hne]
      refine ⟨⟨⟨by rw [happ]; exact keyUnder_append p _, ?_⟩, hfile⟩, by rw [happ]; simp⟩
      intro heq
      have := congrArg List.length heq
      rw [happ] at this
      simp at this
  have hstep3 : List.Perm
      (fs.filter (fun kv =>
        (decide (strictUnder p kv.1) && kv.2.isFile) &&
          !decide (kv.1.length = p.length + 1)))
      ((dirChildNames fs p).flatMap (fun d => fileKeysUnder fs (p ++ [d]))) := by
    apply filter_tags_perm fs (dirChildNames fs p) _
      (fun d kv => decide (strictUnder (p ++ [d]) kv.1) && kv.2.isFile)
      (dirChildNames_nodup fs p hwf.1)
    · intro d hd kv hm hq
      rw [Bool.and_eq_true, decide_eq_true_eq] at hq
      rcases hq with ⟨hsu, hfile⟩
      have hlen := strictUnder_length _ _ hsu
      rw [List.length_append, List.length_singleton] at hlen
      have hku : keyUnder p kv.1 :=
        keyUnder_trans p (p ++ [d]) kv.1 (keyUnder_append p [d]) hsu.1
      have hne1 : kv.1 ≠ p := by
        intro heq
        have := congrArg List.length heq
        omega
      have hne2 : kv.1.length ≠ p.length + 1 := by omega
      rw [Bool.and_eq_true, Bool.and_eq_true]
      exact ⟨⟨decide_eq_true ⟨hku, hne1⟩, hfile⟩, by simp [hne2]⟩
    · intro kv hm hq
      rw [Bool.and_eq_true, Bool.and_eq_true] at hq
      rcases hq with ⟨⟨hsu0, hfile⟩, hlen0⟩
      have hsu : strictUnder p kv.1 := of_decide_eq_true hsu0
      have hlenne : kv.1.length ≠ p.length + 1 := by
        intro he
        rw [he] at hlen0
        simp at hlen0
      have hlt : p.length < kv.1.length := strictUnder_length _ _ hsu
      obtain ⟨c, hc⟩ : ∃ c, kv.1[p.length]? = some c :=
        ⟨kv.1.get ⟨p.length, hlt⟩, by rw [List.getElem?_eq_getElem hlt]; rfl⟩
      have htake : kv.1.take (p.length + 1) = p ++ [c] := by
        rw [List.take_succ, hc]
        have hk1 := hsu.1
        unfold keyUnder at hk1
        rw [hk1]
        rfl
      have hju : keyUnder (p ++ [c]) kv.1 := by
        unfold keyUnder
        rw [List.length_append, List.length_singleton, htake]
      have hjne : p ++ [c] ≠ kv.1 := by
        intro heq
        have hle := congrArg List.length heq
        rw [List.length_append, List.length_singleton] at hle
        omega
      have hdir := prefix_is_dir fs hwf kv.1.length kv.1 kv.2 (Nat.le_refl _) hm
        (p ++ [c]) (by simp) hju hjne
      refine ⟨c, (mem_dirChildNames fs p c hwf.1).mpr (fsLookup_mem fs _ _ hdir), ?_⟩
      rw [Bool.and_eq_true]
      exact ⟨decide_eq_true ⟨hju, fun he => hjne he.symm⟩, hfile⟩
    · intro kv d1 hd1 d2 hd2 hq1 hq2
      rw [Bool.and_eq_true] at hq1 hq2
      have h1 : strictUnder (p ++ [d1]) kv.1 := of_decide_eq_true hq1.1
      have h2 : strictUnder (p ++ [d2]) kv.1 := of_decide_eq_true hq2.1
      have hk1 := h1.1
      have hk2 := h2.1
      unfold keyUnder at hk1 hk2
      rw [List.length_append, List.length_singleton] at hk1 hk2
      have h3 := hk1.symm.trans hk2
      have h4 := List.append_cancel_left h3
      injection h4 with h5 h6
  unfold fileKeysUnder at hsplit ⊢
  rw [hstep2] at hsplit
  exact hsplit.trans (List.Perm.append_left _ hstep3)

theorem filterMap_eq_map_of_some {α β : Type} (l : List α) (f : α → Option β)
    (g : α → β) (h : ∀ a ∈ l, f a = some (g a)) : l.filterMap f = l.map g := by
  induction l with
  | nil => rfl
  | cons a l2 ih =>
    rw [List.filterMap_cons, h a (by simp), List.map_cons,
      ih (fun x hx => h x (by simp [hx]))]

theorem childEntries_filter_file (fs : Fsys) (p : List String) :
    ((childEntries fs p).filter (fun c => c.2.isFile)).map Prod.fst =
      (fs.filter (fun kv =>
        decide (kv.1.dropLast = p) && decide (kv.1 ≠ []) && kv.2.isFile)).map
        (fun kv => kv.1.getLastD "") := by
  induction fs with
  | nil => rfl
  | cons kv rest ih =>
    unfold childEntries
    rw [List.filterMap_cons]
    cases hg : kv.1.getLast? with
    | none =>
      have hnil : kv.1 = [] := List.getLast?_eq_none_iff.mp hg
      dsimp only
      rw [List.filter_cons, if_neg (by simp [hnil])]
      exact ih
    | some n =>
      have hne : kv.1 ≠ [] := by
        intro hnil
        rw [hnil] at hg
        simp at hg
      dsimp only
      by_cases hd : kv.1.dropLast = p
      · rw [if_pos hd]
        dsimp only
        by_cases hf : kv.2.isFile = true
        · rw [List.filter_cons_of_pos (by exact hf),
            List.filter_cons_of_pos (by simp [hd, hne, hf]), List.map_cons,
            List.map_cons]
          congr 1
          · dsimp only
            rw [List.getLastD_eq_getLast?, hg]
            rfl
        · rw [List.filter_cons_of_neg (by simpa using hf),
            List.filter_cons_of_neg (by simp [hf])]
          exact ih
      · rw [if_neg hd]
        dsimp only
        rw [List.filter_cons, if_neg (by simp [hd])]
        exact ih

theorem joinComps_singleton (s : String) (n : String) :
    joinComps s [n] = ospJoin s n := rfl

theorem joinComps_cons (s : String) (n : String) (cs : List String) :
    joinComps s (n :: cs) = joinComps (ospJoin s n) cs := rfl

theorem resolve_joinComps (s : String) (cs : List String)
    (h : ∀ n ∈ cs, ValidName n) : resolve (joinComps s cs) = resolve s ++ cs := by
  induction cs generalizing s with
  | nil => simp [joinComps]
  | cons n cs2 ih =>
    rw [joinComps_cons, ih (ospJoin s n) (fun x hx => h x (by simp [hx])),
      resolve_ospJoin s n (h n (by simp))]
    simp

/-- The walk of `list_dir_tree`, at any sufficient depth budget, produces a
permutation of the canonical join-strings of all file keys under the root. -/
theorem walk_files_perm (fs : Fsys) (hwf : WFfs fs) :
    ∀ (fuel : Nat) (top : String) (p : List String), resolve top = p →
      (p = [] ∨ fsLookup fs p = some FsEntry.dir) →
      (∀ kv ∈ fs, strictUnder p kv.1 → kv.1.length ≤ p.length + fuel) →
      List.Perm
        ((osWalkAux fs fuel top).flatMap (fun rdf =>
          rdf.2.2.filterMap (fun file =>
            if osIsdir fs (ospJoin rdf.1 file) then none
            else some (ospJoin rdf.1 file))))
        ((fileKeysUnder fs p).map (fun kv => joinComps top (kv.1.drop p.length))) := by
  intro fuel
  induction fuel with
  | zero =>
    intro top p hres hdir hbound
    have hempty : fileKeysUnder fs p = [] := by
      unfold fileKeysUnder
      rw [List.filter_eq_nil_iff]
      intro kv hm hc
      rw [Bool.and_eq_true, decide_eq_true_eq] at hc
      have hl1 := strictUnder_length p kv.1 hc.1
      have hl2 := hbound kv hm hc.1
      omega
    rw [hempty]
    rw [show osWalkAux fs 0 top = [] from rfl]
    simp
  | succ fuel ih =>
    intro top p hres hdir hbound
    have hisdir : osIsdir fs top = true := by
      unfold osIsdir
      rw [hres]
      rcases hdir with h1 | h2
      · rw [h1]
        simp
      · rw [h2]
        simp [entIsDir]
    have hstep : osWalkAux fs (fuel + 1) top =
        (top, ((childEntries fs (resolve top)).filter (fun c => c.2.isDir)).map Prod.fst,
          ((childEntries fs (resolve top)).filter (fun c => c.2.isFile)).map Prod.fst) ::
          (((childEntries fs (resolve top)).filter (fun c => c.2.isDir)).map
            Prod.fst).flatMap (fun d => osWalkAux fs fuel (ospJoin top d)) := by
      simp only [osWalkAux]
      rw [if_pos hisdir]
    rw [hstep, List.flatMap_cons, hres]
    have hthis : (((childEntries fs p).filter (fun c => c.2.isFile)).map
        Prod.fst).filterMap
        (fun file => if osIsdir fs (ospJoin top file) then none
          else some (ospJoin top file)) =
        (fs.filter (fun kv =>
          decide (kv.1.dropLast = p) && decide (kv.1 ≠ []) && kv.2.isFile)).map
          (fun kv => joinComps top (kv.1.drop p.length)) := by
      rw [filterMap_eq_map_of_some _ _ (fun file => ospJoin top file) ?_]
      · rw [childEntries_filter_file fs p, List.map_map]
        apply List.map_congr_left
        intro kv hm
        rcases List.mem_filter.mp hm with ⟨hm2, hcond⟩
        rw [Bool.and_eq_true, Bool.and_eq_true, decide_eq_true_eq,
          decide_eq_true_eq] at hcond
        obtain ⟨⟨hdl, hne⟩, hfile⟩ := hcond
        have happ : kv.1 = p ++ [kv.1.getLast hne] := by
          rw [← hdl]
          conv_lhs => rw [← List.dropLast_append_getLast hne]
        dsimp only [Function.comp]
        rw [show kv.1.getLastD "" = kv.1.getLast hne from by
          rw [List.getLastD_eq_getLast?, List.getLast?_eq_getLast kv.1 hne]
          rfl]
        conv_rhs => rw [happ, List.drop_left]
        rfl
      · intro n hn
        rcases List.mem_map.mp hn with ⟨⟨n1, e1⟩, hm1, hf1⟩
        rcases List.mem_filter.mp hm1 with ⟨hm2, hfile⟩
        cases e1 with
        | dir => simp [FsEntry.isFile] at hfile
        | file c =>
          have he1 : n1 = n := hf1
          have hmc : (p ++ [n], FsEntry.file c) ∈ fs :=
            he1 ▸ (childEntries_mem fs p n1 _).mp hm2
          have hv : ValidName n := validName_of_wf fs hwf p n _ hmc
          have hlu : fsLookup fs (p ++ [n]) = some (.file c) :=
            mem_fsLookup fs _ _ hwf.1 hmc
          have hnd : osIsdir fs (ospJoin top n) = false := by
            unfold osIsdir
            rw [resolve_ospJoin top n hv, hres, hlu]
            simp [entIsDir]
          rw [hnd, if_neg (by simp)]
    have hdeep : List.Perm
        ((dirChildNames fs p).flatMap (fun d =>
          (osWalkAux fs fuel (ospJoin top d)).flatMap (fun rdf =>
            rdf.2.2.filterMap (fun file =>
              if osIsdir fs (ospJoin rdf.1 file) then none
              else some (ospJoin rdf.1 file)))))
        ((dirChildNames fs p).flatMap (fun d =>
          (fileKeysUnder fs (p ++ [d])).map
            (fun kv => joinComps top (kv.1.drop p.length)))) := by
      apply flatMap_perm_fn
      intro d hd
      have hmem := (mem_dirChildNames fs p d hwf.1).mp hd
      have hv : ValidName d := validName_of_wf fs hwf p d _ hmem
      have hres2 : resolve (ospJoin top d) = p ++ [d] := by
        rw [resolve_ospJoin top d hv, hres]
      have hdir2 : (p ++ [d] = [] ∨ fsLookup fs (p ++ [d]) = some FsEntry.dir) :=
        Or.inr (mem_fsLookup fs _ _ hwf.1 hmem)
      have hbound2 : ∀ kv ∈ fs, strictUnder (p ++ [d]) kv.1 →
          kv.1.length ≤ (p ++ [d]).length + fuel := by
        intro kv hm hsu
        have hlen := strictUnder_length _ _ hsu
        rw [List.length_append, List.length_singleton] at hlen
        have hsu0 : strictUnder p kv.1 := by
          refine ⟨keyUnder_trans p (p ++ [d]) kv.1 (keyUnder_append p [d]) hsu.1, ?_⟩
          intro heq
          have := congrArg List.length heq
          omega
        have := hbound kv hm hsu0
        rw [List.length_append, List.length_singleton]
        omega
      have hinner := ih (ospJoin top d) (p ++ [d]) hres2 hdir2 hbound2
      have hmapeq : (fileKeysUnder fs (p ++ [d])).map
          (fun kv => joinComps (ospJoin top d) (kv.1.drop (p ++ [d]).length)) =
          (fileKeysUnder fs (p ++ [d])).map
            (fun kv => joinComps top (kv.1.drop p.length)) := by
        apply List.map_congr_left
        intro kv hm
        rcases List.mem_filter.mp hm with ⟨hm2, hcond⟩
        rw [Bool.and_eq_true, decide_eq_true_eq] at hcond
        have hku := hcond.1.1
        have happ := keyUnder_eq_append (p ++ [d]) kv.1 hku
        have h1 : kv.1.drop p.length = d :: kv.1.drop (p ++ [d]).length := by
          conv_lhs => rw [happ]
          rw [List.append_assoc, List.drop_left]
          rfl
        rw [h1, joinComps_cons]
      rw [hmapeq] at hinner
      exact hinner
    have hdecomp := (fileKeys_decomp fs p hwf).map
      (fun kv => joinComps top (kv.1.drop p.length))
    rw [List.map_append, List.map_flatMap] at hdecomp
    refine List.Perm.trans ?_ hdecomp.symm
    rw [List.flatMap_assoc]
    rw [show (((childEntries fs p).filter (fun c => c.2.isDir)).map Prod.fst) =
      dirChildNames fs p from rfl]
    rw [hthis]
    exact List.Perm.append (List.Perm.refl _) hdeep

theorem le_fsDepthBound (fs : Fsys) : ∀ kv ∈ fs, kv.1.length ≤ fsDepthBound fs := by
  induction fs with
  | nil => simp
  | cons kv2 rest ih =>
    intro kv hm
    unfold fsDepthBound
    rw [List.foldr_cons]
    rcases List.mem_cons.mp hm with h1 | h1
    · rw [h1]
      exact Nat.le_max_left _ _
    · exact Nat.le_trans (ih kv h1) (Nat.le_max_right _ _)

/-- C7: for every directory tree rooted at `root`, `list_dir_tree(root)`
returns exactly the regular files at every depth (as a permutation of
their canonical joined paths), never a directory entry, and its length
equals the total number of files in the whole tree. -/
theorem list_dir_tree_spec (fs : Fsys) (root : String) (hwf : WFfs fs)
    (hdir : osIsdir fs root = true) :
    List.Perm (list_dir_tree fs root)
        ((fileKeysUnder fs (resolve root)).map
          (fun kv => joinComps root (kv.1.drop (resolve root).length))) ∧
      (list_dir_tree fs root).length = (fileKeysUnder fs (resolve root)).length ∧
      ∀ s ∈ list_dir_tree fs root, osIsfile fs s = true := by
  have hdir2 : resolve root = [] ∨ fsLookup fs (resolve root) = some FsEntry.dir := by
    unfold osIsdir at hdir
    by_cases h1 : resolve root = []
    · exact Or.inl h1
    · right
      rw [decide_eq_false h1, Bool.false_or] at hdir
      cases hl : fsLookup fs (resolve root) with
      | none => rw [hl] at hdir; simp [entIsDir] at hdir
      | some e =>
        cases e with
        | file c => rw [hl] at hdir; simp [entIsDir] at hdir
        | dir => rfl
  have hbound : ∀ kv ∈ fs, strictUnder (resolve root) kv.1 →
      kv.1.length ≤ (resolve root).length + (fsDepthBound fs + 1) := by
    intro kv hm _
    have := le_fsDepthBound fs kv hm
    omega
  have hperm0 := walk_files_perm fs hwf (fsDepthBound fs + 1) root (resolve root)
    rfl hdir2 hbound
  have hperm : List.Perm (list_dir_tree fs root)
      ((fileKeysUnder fs (resolve root)).map
        (fun kv => joinComps root (kv.1.drop (resolve root).length))) := by
    unfold list_dir_tree osWalk
    exact hperm0
  refine ⟨hperm, ?_, ?_⟩
  · rw [hperm.length_eq, List.length_map]
  · intro s hs
    have hs2 := hperm.mem_iff.mp hs
    rcases List.mem_map.mp hs2 with ⟨kv, hm, hf⟩
    rcases List.mem_filter.mp hm with ⟨hm2, hcond⟩
    rw [Bool.and_eq_true, decide_eq_true_eq] at hcond
    have hvalid : ∀ n ∈ kv.1.drop (resolve root).length, ValidName n := by
      intro n hn
      exact (hwf.2 kv hm2).2.1 n (List.mem_of_mem_drop hn)
    have hres : resolve s = kv.1 := by
      rw [← hf, resolve_joinComps root _ hvalid]
      rw [← keyUnder_eq_append (resolve root) kv.1 hcond.1.1]
    unfold osIsfile
    rw [hres, mem_fsLookup fs kv.1 kv.2 hwf.1 hm2]
    cases hk : kv.2 with
    | file c => rfl
    | dir =>
      rw [hk] at hcond
      simp [FsEntry.isFile] at hcond

theorem list_dir_tree_spec_witness :
    WFfs [(["r"], FsEntry.dir), (["r", "a"], FsEntry.file [1]),
        (["r", "s"], FsEntry.dir), (["r", "s", "b"], FsEntry.file [2])] ∧
      osIsdir [(["r"], FsEntry.dir), (["r", "a"], FsEntry.file [1]),
        (["r", "s"], FsEntry.dir), (["r", "s", "b"], FsEntry.file [2])] "r" = true ∧
      (list_dir_tree [(["r"], FsEntry.dir), (["r", "a"], FsEntry.file [1]),
          (["r", "s"], FsEntry.dir), (["r", "s", "b"], FsEntry.file [2])] "r").length =
        (fileKeysUnder [(["r"], FsEntry.dir), (["r", "a"], FsEntry.file [1]),
          (["r", "s"], FsEntry.dir), (["r", "s", "b"], FsEntry.file [2])]
          (resolve "r")).length ∧
      list_dir_tree [(["r"], FsEntry.dir), (["r", "a"], FsEntry.file [1]),
          (["r", "s"], FsEntry.dir), (["r", "s", "b"], FsEntry.file [2])] "r" =
        ["r/a", "r/s/b"] :=
  ⟨by decide, by decide,
    (list_dir_tree_spec [(["r"], FsEntry.dir), (["r", "a"], FsEntry.file [1]),
      (["r", "s"], FsEntry.dir), (["r", "s", "b"], FsEntry.file [2])] "r"
      (by decide) (by decide)).2.1,
    by rfl⟩

/-! Support for the flattening move: rekeying, the moved-files view, and
the shape of the walk output strings. -/

theorem fsLookup_isSome_of_mem (fs : Fsys) (kv : List String × FsEntry)
    (hm : kv ∈ fs) : (fsLookup fs kv.1).isSome := by
  induction fs with
  | nil => simp at hm
  | cons hd rest ih =>
    rw [fsLookup_cons]
    by_cases he : hd.1 = kv.1
    · rw [if_pos he]; rfl
    · rw [if_neg he]
      rcases List.mem_cons.mp hm with h1 | h1
      · exact absurd (congrArg Prod.fst h1).symm he
      · exact ih h1

/-- Under mutual non-nesting of `p` and `q`, a direct child of `q` is not
below `p`. -/
theorem not_keyUnder_dest (p q : List String) (x : String)
    (hd1 : ¬ keyUnder p q) (hd2 : ¬ keyUnder q p) : ¬ keyUnder p (q ++ [x]) := by
  intro h
  unfold keyUnder at h
  rcases le_or_lt p.length q.length with hle | hlt
  · apply hd1
    unfold keyUnder
    rw [List.take_append_eq_append_take, Nat.sub_eq_zero_of_le hle,
      List.take_zero, List.append_nil] at h
    exact h
  · apply hd2
    have hlen : (q ++ [x]).length ≤ p.length := by
      simp only [List.length_append, List.length_cons, List.length_nil]
      omega
    rw [List.take_of_length_le hlen] at h
    unfold keyUnder
    rw [← h, List.take_append_eq_append_take, Nat.sub_self, List.take_zero,
      List.append_nil, List.take_length]

theorem take_length_self_eq (k ks : List String) (h : k = ks) :
    k.take ks.length = ks := by
  rw [h, List.take_length]

/-- Extensional effect of the rekeying on lookups, when neither the source
nor the destination key has strict extensions in the store. -/
theorem renameKeys_lookup (fs : Fsys) (ks kd : List String) (hne : ks ≠ kd)
    (hk : ∀ kv ∈ fs, keyUnder ks kv.1 → kv.1 = ks)
    (hd : ∀ kv ∈ fs, keyUnder kd kv.1 → kv.1 = kd) (j : List String) :
    fsLookup (renameKeys fs ks kd) j =
      if j = kd then fsLookup fs ks
      else if j = ks then none
      else fsLookup fs j := by
  induction fs with
  | nil => simp [renameKeys, fsLookup]
  | cons kv rest ih =>
    have ihr := ih (fun x hx => hk x (List.mem_cons_of_mem kv hx))
      (fun x hx => hd x (List.mem_cons_of_mem kv hx))
    by_cases hA : kv.1.take ks.length = ks
    · have hkv : kv.1 = ks := hk kv (List.mem_cons_self kv rest) hA
      have e1 : renameKeys (kv :: rest) ks kd = (kd, kv.2) :: renameKeys rest ks kd := by
        simp only [renameKeys, List.filterMap_cons, hkv, List.take_length,
          eq_self_iff_true, if_true, List.drop_length, List.append_nil]
      rw [e1, fsLookup_cons, ihr]
      by_cases hj1 : j = kd
      · rw [if_pos hj1.symm, if_pos hj1, fsLookup_cons, if_pos hkv]
      · rw [if_neg (fun h => hj1 h.symm), if_neg hj1, if_neg hj1]
        by_cases hj3 : j = ks
        · rw [if_pos hj3, if_pos hj3]
        · rw [if_neg hj3, if_neg hj3, fsLookup_cons,
            if_neg (by rw [hkv]; exact fun h => hj3 h.symm)]
    · by_cases hB : kv.1.take kd.length = kd
      · have hkv : kv.1 = kd := hd kv (List.mem_cons_self kv rest) hB
        have e1 : renameKeys (kv :: rest) ks kd = renameKeys rest ks kd := by
          simp only [renameKeys, List.filterMap_cons, if_neg hA, if_pos hB]
        rw [e1, ihr]
        by_cases hj1 : j = kd
        · rw [if_pos hj1, if_pos hj1, fsLookup_cons,
            if_neg (by rw [hkv]; exact fun h => hne h.symm)]
        · rw [if_neg hj1, if_neg hj1]
          by_cases hj3 : j = ks
          · rw [if_pos hj3, if_pos hj3]
          · rw [if_neg hj3, if_neg hj3, fsLookup_cons,
              if_neg (by rw [hkv]; exact fun h => hj1 h.symm)]
      · have e1 : renameKeys (kv :: rest) ks kd = kv :: renameKeys rest ks kd := by
          simp only [renameKeys, List.filterMap_cons, if_neg hA, if_neg hB]
        rw [e1, fsLookup_cons, ihr]
        by_cases hkvj : kv.1 = j
        · have hjk : ¬ j = kd := fun h => hB (take_length_self_eq kv.1 kd (hkvj.trans h))
          have hjs : ¬ j = ks := fun h => hA (take_length_self_eq kv.1 ks (hkvj.trans h))
          rw [if_pos hkvj, if_neg hjk, if_neg hjs, fsLookup_cons, if_pos hkvj]
        · rw [if_neg hkvj]
          by_cases hj1 : j = kd
          · rw [if_pos hj1, if_pos hj1, fsLookup_cons,
              if_neg (fun h => hA (take_length_self_eq kv.1 ks h))]
          · rw [if_neg hj1, if_neg hj1]
            by_cases hj3 : j = ks
            · rw [if_pos hj3, if_pos hj3]
            · rw [if_neg hj3, if_neg hj3, fsLookup_cons, if_neg hkvj]

theorem find?_unique {α : Type} (P : α → Bool) (l : List α) (a : α) (ha : a ∈ l)
    (hPa : P a = true) (huniq : ∀ b ∈ l, P b = true → b = a) :
    l.find? P = some a := by
  induction l with
  | nil => simp at ha
  | cons x xs ih =>
    rw [List.find?_cons]
    by_cases hx : P x = true
    · rw [hx]
      exact congrArg some (huniq x (List.mem_cons_self x xs) hx)
    · rw [Bool.not_eq_true] at hx
      rw [hx]
      rcases List.mem_cons.mp ha with h1 | h1
      · exfalso
        rw [h1, hx] at hPa
        exact Bool.false_ne_true hPa
      · exact ih h1 (fun b hb hPb => huniq b (List.mem_cons_of_mem x hb) hPb)

/-- Where no record interferes, the view agrees with the initial store. -/
theorem movedView_eq_base (fs0 : Fsys) (q : List String)
    (moved : List (List String × List Nat)) (j : List String)
    (h1 : j ∉ moved.map Prod.fst)
    (h2 : ∀ m ∈ moved, j ≠ q ++ [lastName m.1]) :
    movedView fs0 q moved j = fsLookup fs0 j := by
  unfold movedView
  have hf : moved.find? (fun m => decide (j = q ++ [lastName m.1])) = none := by
    rw [List.find?_eq_none]
    intro m hm
    simp only [decide_eq_true_eq]
    exact h2 m hm
  rw [if_neg h1, hf]

/-- The view at the flattened destination of a recorded move. -/
theorem movedView_at_dest (fs0 : Fsys) (p q : List String)
    (moved : List (List String × List Nat)) (m : List String × List Nat)
    (hm : m ∈ moved) (hM : ∀ x ∈ moved, strictUnder p x.1)
    (hnd : (moved.map (fun x => lastName x.1)).Nodup)
    (hd1 : ¬ keyUnder p q) (hd2 : ¬ keyUnder q p) :
    movedView fs0 q moved (q ++ [lastName m.1]) = some (.file m.2) := by
  unfold movedView
  have h1 : q ++ [lastName m.1] ∉ moved.map Prod.fst := by
    intro hmem
    rcases List.mem_map.mp hmem with ⟨x, hx, he⟩
    apply not_keyUnder_dest p q (lastName m.1) hd1 hd2
    rw [← he]
    exact (hM x hx).1
  have hfind : moved.find? (fun x => decide (q ++ [lastName m.1] = q ++ [lastName x.1]))
      = some m := by
    apply find?_unique _ _ m hm
    · simp
    · intro b hb hPb
      simp only [decide_eq_true_eq] at hPb
      have h2 := List.append_cancel_left hPb
      simp only [List.cons.injEq, and_true] at h2
      exact List.inj_on_of_nodup_map hnd hb hm h2.symm
  rw [if_neg h1, hfind]

/-- Appending one fresh record to the view. -/
theorem movedView_snoc (fs0 : Fsys) (p q : List String)
    (moved : List (List String × List Nat)) (k : List String) (c : List Nat)
    (hM : ∀ x ∈ moved, strictUnder p x.1) (hk : strictUnder p k)
    (hnew : lastName k ∉ moved.map (fun x => lastName x.1))
    (hd1 : ¬ keyUnder p q) (hd2 : ¬ keyUnder q p) (j : List String) :
    movedView fs0 q (moved ++ [(k, c)]) j =
      if j = q ++ [lastName k] then some (.file c)
      else if j = k then none
      else movedView fs0 q moved j := by
  by_cases h1 : j = q ++ [lastName k]
  · rw [if_pos h1]
    subst h1
    unfold movedView
    have hmem : q ++ [lastName k] ∉ (moved ++ [(k, c)]).map Prod.fst := by
      rw [List.map_append, List.mem_append]
      rintro (hmo | hko)
      · rcases List.mem_map.mp hmo with ⟨x, hx, he⟩
        apply not_keyUnder_dest p q (lastName k) hd1 hd2
        rw [← he]
        exact (hM x hx).1
      · simp only [List.map_cons, List.map_nil, List.mem_singleton] at hko
        apply not_keyUnder_dest p q (lastName k) hd1 hd2
        rw [hko]
        exact hk.1
    have hf1 : moved.find?
        (fun m => decide (q ++ [lastName k] = q ++ [lastName m.1])) = none := by
      rw [List.find?_eq_none]
      intro x hx
      simp only [decide_eq_true_eq]
      intro he
      apply hnew
      have h2 := List.append_cancel_left he
      simp only [List.cons.injEq, and_true] at h2
      rw [h2]
      exact List.mem_map.mpr ⟨x, hx, rfl⟩
    have hf2 : [(k, c)].find?
        (fun m => decide (q ++ [lastName k] = q ++ [lastName m.1])) = some (k, c) := by
      simp [List.find?]
    rw [if_neg hmem, List.find?_append, hf1, hf2]
    rfl
  · rw [if_neg h1]
    by_cases h2 : j = k
    · rw [if_pos h2]
      subst h2
      unfold movedView
      have hmem : j ∈ (moved ++ [(j, c)]).map Prod.fst := by
        rw [List.map_append, List.mem_append]
        right
        simp
      rw [if_pos hmem]
    · rw [if_neg h2]
      unfold movedView
      by_cases hmo : j ∈ moved.map Prod.fst
      · have hmem : j ∈ (moved ++ [(k, c)]).map Prod.fst := by
          rw [List.map_append]
          exact List.mem_append_left _ hmo
        rw [if_pos hmem, if_pos hmo]
      · have hnm : j ∉ (moved ++ [(k, c)]).map Prod.fst := by
          rw [List.map_append, List.mem_append]
          rintro (h | h)
          · exact hmo h
          · simp only [List.map_cons, List.map_nil, List.mem_singleton] at h
            exact h2 h
        have hf2 : [(k, c)].find? (fun m => decide (j = q ++ [lastName m.1])) = none := by
          simp [List.find?, h1]
        rw [if_neg hnm, if_neg hmo, List.find?_append, hf2, Option.or_none]

theorem lastName_mem (k : List String) (h : k ≠ []) : lastName k ∈ k := by
  unfold lastName
  rw [List.getLastD_eq_getLast?, List.getLast?_eq_getLast k h]
  exact List.getLast_mem h

theorem joinComps_concat (s : String) (cs : List String) (n : String) :
    joinComps s (cs ++ [n]) = ospJoin (joinComps s cs) n := by
  unfold joinComps
  rw [List.foldl_concat]

/-- The tail of `os.path.split` on a canonical join is the last component. -/
theorem ospSplit_tail_joinComps (s : String) :
    ∀ (cs : List String), cs ≠ [] → (∀ n ∈ cs, ValidName n) →
      (ospSplit (joinComps s cs)).2 = cs.getLastD "" := by
  intro cs
  induction cs using List.reverseRecOn with
  | nil => intro hne _; exact absurd rfl hne
  | append_singleton xs x _ =>
    intro _ hv
    rw [joinComps_concat, ospSplit_tail_ospJoin _ x (hv x (by simp)),
      List.getLastD_concat]

theorem getLastD_drop (k : List String) (m : Nat) (hm : m < k.length) :
    (k.drop m).getLastD "" = k.getLastD "" := by
  have h1 : (k.drop m).getLast? = k.getLast? := by
    rw [List.getLast?_drop, if_neg (by omega)]
  rw [List.getLastD_eq_getLast?, List.getLastD_eq_getLast?, h1]

/-- `os.rename` of an existing regular file onto a fresh path with an
existing parent directory succeeds by rekeying. -/
theorem osRename_file_fresh (st : Fsys) (src dst : String) (c : List Nat)
    (hsrc : fsLookup st (resolve src) = some (.file c))
    (hsne : resolve src ≠ [])
    (hdne : resolve dst ≠ [])
    (hdst : fsLookup st (resolve dst) = none)
    (hpar : parentDirOk st (resolve dst) = true) :
    osRename st src dst = .ok (renameKeys st (resolve src) (resolve dst)) := by
  have h1 : (resolve src).isEmpty = false :=
    Bool.eq_false_iff.mpr (fun h => hsne (List.isEmpty_iff.mp h))
  have h2 : (resolve dst).isEmpty = false :=
    Bool.eq_false_iff.mpr (fun h => hdne (List.isEmpty_iff.mp h))
  simp only [osRename, hsrc, hdst, hpar, h1, h2, Bool.not_true, Bool.false_eq_true,
    if_false]

theorem keyUnder_antichain (a b k : List String) (ha : keyUnder a k)
    (hb : keyUnder b k) (hl : a.length ≤ b.length) : keyUnder a b := by
  unfold keyUnder at ha hb ⊢
  rw [← hb, List.take_take, Nat.min_eq_left hl]
  exact ha

/-- Invariant of the loop of `move_all_files_from_root`: starting from a
state that looks like the initial store with the records in `moved` already
flattened into `q`, processing the remaining paths `L` either moves them
all (when no basename collides) or stops at the first collision with
`AlreadyExistsError`, keeping every earlier move in place. -/
theorem moveAllLoop_invariant (fs0 : Fsys) (p q : List String) (to_folder : String)
    (hwf : WFfs fs0)
    (hq : resolve to_folder = q)
    (hqdir : fsLookup fs0 q = some FsEntry.dir)
    (hd1 : ¬ keyUnder p q) (hd2 : ¬ keyUnder q p)
    (hclear : ∀ kv ∈ fs0, strictUnder p kv.1 → kv.2.isFile = true →
      fsLookup fs0 (q ++ [lastName kv.1]) = none) :
    ∀ (L : List String) (moved : List (List String × List Nat)) (st : Fsys),
      (∀ j, fsLookup st j = movedView fs0 q moved j) →
      (∀ m ∈ moved, (m.1, FsEntry.file m.2) ∈ fs0 ∧ strictUnder p m.1) →
      (moved.map (fun m => lastName m.1)).Nodup →
      (∀ s ∈ L, (resolve s, FsEntry.file (contentAt fs0 (resolve s))) ∈ fs0 ∧
        strictUnder p (resolve s) ∧ (ospSplit s).2 = lastName (resolve s)) →
      (L.map resolve).Nodup →
      (∀ s ∈ L, resolve s ∉ moved.map Prod.fst) →
      ((((moved.map (fun m => lastName m.1)) ++
          L.map (fun s => (ospSplit s).2)).Nodup →
        (moveAllLoop to_folder st L).2 = none ∧
        ∀ j, fsLookup (moveAllLoop to_folder st L).1 j =
          movedView fs0 q (moved ++ moveRecords fs0 L) j) ∧
      (¬ (((moved.map (fun m => lastName m.1)) ++
          L.map (fun s => (ospSplit s).2)).Nodup) →
        (moveAllLoop to_folder st L).2 = some FsErr.alreadyExists ∧
        ∃ extra, moved ++ extra ≠ [] ∧
          (∀ m ∈ extra, (m.1, FsEntry.file m.2) ∈ fs0 ∧ strictUnder p m.1) ∧
          ((moved ++ extra).map (fun m => lastName m.1)).Nodup ∧
          ∀ j, fsLookup (moveAllLoop to_folder st L).1 j =
            movedView fs0 q (moved ++ extra) j)) := by
  intro L
  induction L with
  | nil =>
    intro moved st hinv _ hM2 _ _ _
    constructor
    · intro _
      refine ⟨rfl, ?_⟩
      intro j
      simpa [moveAllLoop, moveRecords] using hinv j
    · intro hno
      exfalso
      apply hno
      simpa using hM2
  | cons s rest ih =>
    intro moved st hinv hM1 hM2 hR1 hR2 hR3
    obtain ⟨hks, hkp, htail⟩ := hR1 s (List.mem_cons_self s rest)
    rw [List.map_cons, List.nodup_cons] at hR2
    have hkne : resolve s ≠ [] := (hwf.2 _ hks).1
    have hnv : ValidName (lastName (resolve s)) :=
      (hwf.2 _ hks).2.1 _ (lastName_mem _ hkne)
    have hlook0 : fsLookup fs0 (resolve s) =
        some (.file (contentAt fs0 (resolve s))) :=
      mem_fsLookup fs0 _ _ hwf.1 hks
    have hstk : fsLookup st (resolve s) =
        some (.file (contentAt fs0 (resolve s))) := by
      rw [hinv (resolve s), movedView_eq_base]
      · exact hlook0
      · exact hR3 s (List.mem_cons_self s rest)
      · intro m hm he
        exact not_keyUnder_dest p q (lastName m.1) hd1 hd2 (he ▸ hkp.1)
    have hisf : osIsfile st s = true := by
      unfold osIsfile
      rw [hstk]
      rfl
    have hrdst : resolve (ospJoin to_folder (lastName (resolve s))) =
        q ++ [lastName (resolve s)] := by
      rw [resolve_ospJoin to_folder _ hnv, hq]
    have hdstnone : fsLookup fs0 (q ++ [lastName (resolve s)]) = none :=
      hclear _ hks hkp rfl
    have hloopeq : moveAllLoop to_folder st (s :: rest) =
        (if osIsfile st s then
          match move_file st s (ospJoin to_folder (ospSplit s).2) with
          | .ok st1 => moveAllLoop to_folder st1 rest
          | .error e => (st, some e)
        else moveAllLoop to_folder st rest) := by
      rw [moveAllLoop]
    rw [htail, if_pos hisf] at hloopeq
    by_cases hcol : lastName (resolve s) ∈ moved.map (fun m => lastName m.1)
    · rcases List.mem_map.mp hcol with ⟨m0, hm0, hm0e⟩
      have hdstfile : fsLookup st (q ++ [lastName (resolve s)]) =
          some (.file m0.2) := by
        rw [hinv, ← hm0e]
        exact movedView_at_dest fs0 p q moved m0 hm0
          (fun x hx => (hM1 x hx).2) hM2 hd1 hd2
      have hdstisf : osIsfile st (ospJoin to_folder (lastName (resolve s))) = true := by
        unfold osIsfile
        rw [hrdst, hdstfile]
        rfl
      have hmv : move_file st s (ospJoin to_folder (lastName (resolve s))) =
          .error .alreadyExists := by
        unfold move_file
        rw [if_pos hdstisf]
      rw [hmv] at hloopeq
      constructor
      · intro hnod
        exfalso
        rw [List.map_cons, htail] at hnod
        rcases List.nodup_append.mp hnod with ⟨_, _, hdisj⟩
        exact hdisj hcol (List.mem_cons_self _ _)
      · intro _
        refine ⟨by rw [hloopeq], [], ?_, ?_, ?_, ?_⟩
        · simp only [List.append_nil]
          exact List.ne_nil_of_mem hm0
        · intro m hm
          simp at hm
        · simpa using hM2
        · intro j
          rw [hloopeq]
          simpa using hinv j
    · have hdstlook : fsLookup st (q ++ [lastName (resolve s)]) = none := by
        rw [hinv, movedView_eq_base]
        · exact hdstnone
        · intro hmem
          rcases List.mem_map.mp hmem with ⟨x, hx, he⟩
          apply not_keyUnder_dest p q (lastName (resolve s)) hd1 hd2
          rw [← he]
          exact (hM1 x hx).2.1
        · intro m hm he
          apply hcol
          have h2 := List.append_cancel_left he
          simp only [List.cons.injEq, and_true] at h2
          rw [h2]
          exact List.mem_map.mpr ⟨m, hm, rfl⟩
      have hqst : fsLookup st q = some FsEntry.dir := by
        rw [hinv, movedView_eq_base]
        · exact hqdir
        · intro hmem
          rcases List.mem_map.mp hmem with ⟨x, hx, he⟩
          apply hd1
          rw [← he]
          exact (hM1 x hx).2.1
        · intro m hm he
          have hl := congrArg List.length he
          simp only [List.length_append, List.length_cons, List.length_nil] at hl
          omega
      have hdne : (q ++ [lastName (resolve s)] : List String) ≠ [] := by simp
      have hreq : resolve s ≠ q ++ [lastName (resolve s)] := by
        intro he
        apply not_keyUnder_dest p q (lastName (resolve s)) hd1 hd2
        rw [← he]
        exact hkp.1
      have hnoextk : ∀ kv ∈ st, keyUnder (resolve s) kv.1 → kv.1 = resolve s := by
        intro kv hkv hu
        by_contra hneq
        have hsome := fsLookup_isSome_of_mem st kv hkv
        rw [hinv kv.1] at hsome
        unfold movedView at hsome
        by_cases hmem : kv.1 ∈ moved.map Prod.fst
        · rw [if_pos hmem] at hsome
          simp at hsome
        · rw [if_neg hmem] at hsome
          have hupj : keyUnder p kv.1 := keyUnder_trans p (resolve s) kv.1 hkp.1 hu
          have hfind : moved.find?
              (fun m => decide (kv.1 = q ++ [lastName m.1])) = none := by
            rw [List.find?_eq_none]
            intro m hm
            simp only [decide_eq_true_eq]
            intro he
            exact not_keyUnder_dest p q (lastName m.1) hd1 hd2 (he ▸ hupj)
          cases hb : fsLookup fs0 kv.1 with
          | none =>
            rw [hfind, hb] at hsome
            simp at hsome
          | some e =>
            have hmem0 : (kv.1, e) ∈ fs0 := fsLookup_mem fs0 kv.1 e hb
            have hpd := prefix_is_dir fs0 hwf kv.1.length kv.1 e le_rfl hmem0
              (resolve s) hkne hu (fun h => hneq h.symm)
            rw [hlook0] at hpd
            exact FsEntry.noConfusion (Option.some.inj hpd)
      have hnoextd : ∀ kv ∈ st, keyUnder (q ++ [lastName (resolve s)]) kv.1 →
          kv.1 = q ++ [lastName (resolve s)] := by
        intro kv hkv hu
        by_contra hneq
        have hsome := fsLookup_isSome_of_mem st kv hkv
        rw [hinv kv.1] at hsome
        unfold movedView at hsome
        by_cases hmem : kv.1 ∈ moved.map Prod.fst
        · rcases List.mem_map.mp hmem with ⟨x, hx, he⟩
          have hup : keyUnder p kv.1 := by
            rw [← he]
            exact (hM1 x hx).2.1
          rcases le_or_lt p.length (q ++ [lastName (resolve s)]).length with hle | hlt
          · exact not_keyUnder_dest p q (lastName (resolve s)) hd1 hd2
              (keyUnder_antichain p (q ++ [lastName (resolve s)]) kv.1 hup hu hle)
          · apply hd2
            have h3 := keyUnder_antichain (q ++ [lastName (resolve s)]) p kv.1
              hu hup (le_of_lt hlt)
            exact keyUnder_trans q (q ++ [lastName (resolve s)]) p
              (keyUnder_append q [lastName (resolve s)]) h3
        · rw [if_neg hmem] at hsome
          have hstrict : strictUnder (q ++ [lastName (resolve s)]) kv.1 := ⟨hu, hneq⟩
          have hlen := strictUnder_length _ _ hstrict
          have hfind : moved.find?
              (fun m => decide (kv.1 = q ++ [lastName m.1])) = none := by
            rw [List.find?_eq_none]
            intro m hm
            simp only [decide_eq_true_eq]
            intro he
            have hl := congrArg List.length he
            simp only [List.length_append, List.length_cons, List.length_nil] at hl hlen
            omega
          cases hb : fsLookup fs0 kv.1 with
          | none =>
            rw [hfind, hb] at hsome
            simp at hsome
          | some e =>
            have hmem0 : (kv.1, e) ∈ fs0 := fsLookup_mem fs0 kv.1 e hb
            have hpd := prefix_is_dir fs0 hwf kv.1.length kv.1 e le_rfl hmem0
              (q ++ [lastName (resolve s)]) hdne hu (fun h => hneq h.symm)
            rw [hdstnone] at hpd
            exact Option.noConfusion hpd
      have hpar : parentDirOk st (q ++ [lastName (resolve s)]) = true := by
        unfold parentDirOk
        rw [List.dropLast_concat, hqst]
        simp [entIsDir]
      have hrename : osRename st s (ospJoin to_folder (lastName (resolve s))) =
          .ok (renameKeys st (resolve s) (q ++ [lastName (resolve s)])) := by
        have h0 := osRename_file_fresh st s (ospJoin to_folder (lastName (resolve s)))
          (contentAt fs0 (resolve s)) hstk hkne
          (by rw [hrdst]; exact hdne) (by rw [hrdst]; exact hdstlook)
          (by rw [hrdst]; exact hpar)
        rw [hrdst] at h0
        exact h0
      have hnotdir : osIsdir st (ospJoin to_folder (lastName (resolve s))) = false := by
        unfold osIsdir
        rw [hrdst, hdstlook]
        simp [entIsDir, hdne]
      have hdstisf : osIsfile st (ospJoin to_folder (lastName (resolve s))) = false := by
        unfold osIsfile
        rw [hrdst, hdstlook]
        rfl
      have hmv : move_file st s (ospJoin to_folder (lastName (resolve s))) =
          .ok (renameKeys st (resolve s) (q ++ [lastName (resolve s)])) := by
        unfold move_file shutilMove
        rw [hdstisf, hnotdir]
        simp only [Bool.false_eq_true, if_false]
        exact hrename
      rw [hmv] at hloopeq
      have hloopeq2 : moveAllLoop to_folder st (s :: rest) =
          moveAllLoop to_folder
            (renameKeys st (resolve s) (q ++ [lastName (resolve s)])) rest := by
        rw [hloopeq]
      have hinv1 : ∀ j,
          fsLookup (renameKeys st (resolve s) (q ++ [lastName (resolve s)])) j =
            movedView fs0 q (moved ++ [(resolve s, contentAt fs0 (resolve s))]) j := by
        intro j
        rw [renameKeys_lookup st (resolve s) (q ++ [lastName (resolve s)]) hreq
          hnoextk hnoextd j]
        rw [movedView_snoc fs0 p q moved (resolve s) (contentAt fs0 (resolve s))
          (fun x hx => (hM1 x hx).2) hkp hcol hd1 hd2 j]
        by_cases h1 : j = q ++ [lastName (resolve s)]
        · rw [if_pos h1, if_pos h1, hstk]
        · rw [if_neg h1, if_neg h1]
          by_cases h2 : j = resolve s
          · rw [if_pos h2, if_pos h2]
          · rw [if_neg h2, if_neg h2, hinv j]
      have hM1' : ∀ m ∈ moved ++ [(resolve s, contentAt fs0 (resolve s))],
          (m.1, FsEntry.file m.2) ∈ fs0 ∧ strictUnder p m.1 := by
        intro m hm
        rcases List.mem_append.mp hm with h | h
        · exact hM1 m h
        · rcases List.mem_singleton.mp h with rfl
          exact ⟨hks, hkp⟩
      have hM2' : ((moved ++ [(resolve s, contentAt fs0 (resolve s))]).map
          (fun m => lastName m.1)).Nodup := by
        rw [List.map_append]
        refine List.Nodup.append hM2 (by simp) ?_
        intro a ha hb
        simp only [List.map_cons, List.map_nil, List.mem_singleton] at hb
        rw [hb] at ha
        exact hcol ha
      have hR1' : ∀ s2 ∈ rest,
          (resolve s2, FsEntry.file (contentAt fs0 (resolve s2))) ∈ fs0 ∧
            strictUnder p (resolve s2) ∧ (ospSplit s2).2 = lastName (resolve s2) :=
        fun s2 hs2 => hR1 s2 (List.mem_cons_of_mem s hs2)
      have hR3' : ∀ s2 ∈ rest, resolve s2 ∉
          (moved ++ [(resolve s, contentAt fs0 (resolve s))]).map Prod.fst := by
        intro s2 hs2
        rw [List.map_append, List.mem_append]
        rintro (h | h)
        · exact hR3 s2 (List.mem_cons_of_mem s hs2) h
        · simp only [List.map_cons, List.map_nil, List.mem_singleton] at h
          exact hR2.1 (h ▸ List.mem_map.mpr ⟨s2, hs2, rfl⟩)
      obtain ⟨ihA, ihB⟩ := ih (moved ++ [(resolve s, contentAt fs0 (resolve s))])
        (renameKeys st (resolve s) (q ++ [lastName (resolve s)]))
        hinv1 hM1' hM2' hR1' hR2.2 hR3'
      constructor
      · intro hnod
        rw [List.map_cons, htail] at hnod
        have hnod' : (((moved ++ [(resolve s, contentAt fs0 (resolve s))]).map
            (fun m => lastName m.1)) ++ rest.map (fun s2 => (ospSplit s2).2)).Nodup := by
          rw [List.map_append, List.append_assoc]
          simpa using hnod
        obtain ⟨he2, hview⟩ := ihA hnod'
        refine ⟨?_, ?_⟩
        · rw [hloopeq2]
          exact he2
        · intro j
          have hle : (moved ++ [(resolve s, contentAt fs0 (resolve s))]) ++
              moveRecords fs0 rest = moved ++ moveRecords fs0 (s :: rest) := by
            rw [List.append_assoc, List.singleton_append]
            unfold moveRecords
            rw [List.map_cons]
          rw [hloopeq2, hview j, hle]
      · intro hnnod
        have hnnod' : ¬ (((moved ++ [(resolve s, contentAt fs0 (resolve s))]).map
            (fun m => lastName m.1)) ++ rest.map (fun s2 => (ospSplit s2).2)).Nodup := by
          intro hc
          apply hnnod
          rw [List.map_cons, htail]
          rw [List.map_append, List.append_assoc] at hc
          simpa using hc
        obtain ⟨he2, extra, hxne, hextra, hnodup, hview⟩ := ihB hnnod'
        refine ⟨by rw [hloopeq2]; exact he2,
          (resolve s, contentAt fs0 (resolve s)) :: extra, ?_, ?_, ?_, ?_⟩
        · simp
        · intro m hm
          rcases List.mem_cons.mp hm with rfl | h
          · exact ⟨hks, hkp⟩
          · exact hextra m h
        · rw [List.append_cons]
          exact hnodup
        · intro j
          rw [hloopeq2]
          have hv := hview j
          rw [← List.append_cons] at hv
          exact hv

/-- The walk output strings resolve back to the file keys they came from. -/
theorem tree_string_resolve (fs : Fsys) (root : String) (hwf : WFfs fs)
    (kv : List String × FsEntry) (hm : kv ∈ fileKeysUnder fs (resolve root)) :
    resolve (joinComps root (kv.1.drop (resolve root).length)) = kv.1 := by
  rcases List.mem_filter.mp hm with ⟨hm2, hcond⟩
  rw [Bool.and_eq_true, decide_eq_true_eq] at hcond
  have hvalid : ∀ n ∈ kv.1.drop (resolve root).length, ValidName n :=
    fun n hn => (hwf.2 kv hm2).2.1 n (List.mem_of_mem_drop hn)
  rw [resolve_joinComps root _ hvalid]
  rw [← keyUnder_eq_append (resolve root) kv.1 hcond.1.1]

/-- C1: `move_all_files_from_root(root_folder, to_folder)` walks the tree
under `root_folder` and moves every regular file found at any depth
directly into `to_folder`, discarding subdirectory structure: when no two
files share a basename the call returns normally, every file that was
strictly under the root now lives at `to_folder/<basename>` with its
content intact and is gone from its original key, subdirectories are left
in place (emptied of files but not deleted), and everything else is
untouched (the full lookup function of the final state is the flattened
view of the initial one); when two files share a basename the call raises
`AlreadyExistsError` from `move_file`'s target-exists guard and the files
already moved stay moved — no rollback, the final state is the flattened
view of a nonempty collision-free sublist of the tree's files. -/
theorem move_all_files_from_root_spec (fs : Fsys) (root dest : String)
    (hwf : WFfs fs)
    (hroot : osIsdir fs root = true)
    (hdest : fsLookup fs (resolve dest) = some FsEntry.dir)
    (hsep1 : ¬ keyUnder (resolve root) (resolve dest))
    (hsep2 : ¬ keyUnder (resolve dest) (resolve root))
    (hclear : ∀ kv ∈ fs, strictUnder (resolve root) kv.1 → kv.2.isFile = true →
      fsLookup fs (resolve dest ++ [lastName kv.1]) = none) :
    ((treeBasenames fs (resolve root)).Nodup →
      (move_all_files_from_root fs root dest).2 = none ∧
      (∀ j, fsLookup (move_all_files_from_root fs root dest).1 j =
        movedView fs (resolve dest) (moveRecords fs (list_dir_tree fs root)) j) ∧
      (∀ kv ∈ fs, strictUnder (resolve root) kv.1 → kv.2 = FsEntry.dir →
        fsLookup (move_all_files_from_root fs root dest).1 kv.1 =
          some FsEntry.dir) ∧
      (∀ kv ∈ fs, strictUnder (resolve root) kv.1 → ∀ c, kv.2 = FsEntry.file c →
        fsLookup (move_all_files_from_root fs root dest).1 kv.1 = none ∧
        fsLookup (move_all_files_from_root fs root dest).1
          (resolve dest ++ [lastName kv.1]) = some (FsEntry.file c))) ∧
    (¬ (treeBasenames fs (resolve root)).Nodup →
      (move_all_files_from_root fs root dest).2 = some FsErr.alreadyExists ∧
      ∃ movedL, movedL ≠ [] ∧
        (∀ m ∈ movedL, (m.1, FsEntry.file m.2) ∈ fs ∧
          strictUnder (resolve root) m.1) ∧
        (movedL.map (fun m => lastName m.1)).Nodup ∧
        ∀ j, fsLookup (move_all_files_from_root fs root dest).1 j =
          movedView fs (resolve dest) movedL j) := by
  obtain ⟨hperm, _, _⟩ := list_dir_tree_spec fs root hwf hroot
  have hR1 : ∀ s ∈ list_dir_tree fs root,
      (resolve s, FsEntry.file (contentAt fs (resolve s))) ∈ fs ∧
        strictUnder (resolve root) (resolve s) ∧
        (ospSplit s).2 = lastName (resolve s) := by
    intro s hs
    rcases List.mem_map.mp (hperm.mem_iff.mp hs) with ⟨kv, hm, he⟩
    subst he
    have hres0 := tree_string_resolve fs root hwf kv hm
    rcases List.mem_filter.mp hm with ⟨hm2, hcond⟩
    rw [Bool.and_eq_true, decide_eq_true_eq] at hcond
    cases hkv2 : kv.2 with
    | dir =>
      rw [hkv2] at hcond
      simp [FsEntry.isFile] at hcond
    | file c =>
      have hlk : fsLookup fs kv.1 = some (.file c) := by
        rw [← hkv2]
        exact mem_fsLookup fs kv.1 kv.2 hwf.1 hm2
      have hca : contentAt fs kv.1 = c := by
        unfold contentAt
        rw [hlk]
      refine ⟨?_, ?_, ?_⟩
      · rw [hres0, hca, ← hkv2]
        exact hm2
      · rw [hres0]
        exact hcond.1
      · have hlen := strictUnder_length _ _ hcond.1
        have hne : kv.1.drop (resolve root).length ≠ [] := by
          rw [← List.length_pos, List.length_drop]
          omega
        have hv : ∀ n ∈ kv.1.drop (resolve root).length, ValidName n :=
          fun n hn => (hwf.2 kv hm2).2.1 n (List.mem_of_mem_drop hn)
        rw [ospSplit_tail_joinComps root _ hne hv, hres0,
          getLastD_drop kv.1 (resolve root).length hlen]
        rfl
  have hfstnodup : ((fileKeysUnder fs (resolve root)).map Prod.fst).Nodup :=
    ((List.filter_sublist fs).map Prod.fst).nodup hwf.1
  have hkeysperm : List.Perm ((list_dir_tree fs root).map resolve)
      ((fileKeysUnder fs (resolve root)).map Prod.fst) := by
    have hmp := hperm.map resolve
    rw [List.map_map] at hmp
    have he : (fileKeysUnder fs (resolve root)).map
        (resolve ∘ fun kv => joinComps root (kv.1.drop (resolve root).length)) =
        (fileKeysUnder fs (resolve root)).map Prod.fst :=
      List.map_congr_left (fun kv hm => tree_string_resolve fs root hwf kv hm)
    rw [he] at hmp
    exact hmp
  have hR2 : ((list_dir_tree fs root).map resolve).Nodup :=
    hkeysperm.nodup_iff.mpr hfstnodup
  have hnames : List.Perm
      ((list_dir_tree fs root).map (fun s => (ospSplit s).2))
      (treeBasenames fs (resolve root)) := by
    have h1 : (list_dir_tree fs root).map (fun s => (ospSplit s).2) =
        (list_dir_tree fs root).map (fun s => lastName (resolve s)) :=
      List.map_congr_left (fun s hs => (hR1 s hs).2.2)
    have hmp := hperm.map (fun s => lastName (resolve s))
    rw [List.map_map] at hmp
    have h2 : (fileKeysUnder fs (resolve root)).map
        ((fun s => lastName (resolve s)) ∘
          fun kv => joinComps root (kv.1.drop (resolve root).length)) =
        treeBasenames fs (resolve root) := by
      unfold treeBasenames
      refine List.map_congr_left (fun kv hm => ?_)
      simp only [Function.comp]
      rw [tree_string_resolve fs root hwf kv hm]
    rw [h1, ← h2]
    exact hmp
  have hinv0 : ∀ j, fsLookup fs j = movedView fs (resolve dest) [] j := by
    intro j
    unfold movedView
    simp [List.find?]
  obtain ⟨hA, hB⟩ := moveAllLoop_invariant fs (resolve root) (resolve dest) dest
    hwf rfl hdest hsep1 hsep2 hclear (list_dir_tree fs root) [] fs hinv0
    (by intro m hm; simp at hm) (by simp) hR1 hR2 (by intro s hs; simp)
  have hMfs : ∀ m ∈ moveRecords fs (list_dir_tree fs root),
      (m.1, FsEntry.file m.2) ∈ fs := by
    intro m hm
    rcases List.mem_map.mp hm with ⟨s, hs, he⟩
    rw [← he]
    exact (hR1 s hs).1
  have hMR : ∀ m ∈ moveRecords fs (list_dir_tree fs root),
      strictUnder (resolve root) m.1 := by
    intro m hm
    rcases List.mem_map.mp hm with ⟨s, hs, he⟩
    rw [← he]
    exact (hR1 s hs).2.1
  have hMR2 : ∀ m ∈ moveRecords fs (list_dir_tree fs root),
      m.2 = contentAt fs m.1 := by
    intro m hm
    rcases List.mem_map.mp hm with ⟨s, hs, he⟩
    rw [← he]
  have hRmapfst : (moveRecords fs (list_dir_tree fs root)).map Prod.fst =
      (list_dir_tree fs root).map resolve := by
    unfold moveRecords
    rw [List.map_map]
    rfl
  constructor
  · intro hnod
    have hn2 : (([] : List (List String × List Nat)).map (fun m => lastName m.1) ++
        (list_dir_tree fs root).map (fun s => (ospSplit s).2)).Nodup := by
      simp only [List.map_nil, List.nil_append]
      exact hnames.nodup_iff.mpr hnod
    obtain ⟨he2, hview0⟩ := hA hn2
    have hview : ∀ j, fsLookup (move_all_files_from_root fs root dest).1 j =
        movedView fs (resolve dest) (moveRecords fs (list_dir_tree fs root)) j := by
      intro j
      have hv := hview0 j
      rw [List.nil_append] at hv
      exact hv
    have hndR : ((moveRecords fs (list_dir_tree fs root)).map
        (fun m => lastName m.1)).Nodup := by
      have he : (moveRecords fs (list_dir_tree fs root)).map
          (fun m => lastName m.1) =
          (list_dir_tree fs root).map (fun s => (ospSplit s).2) := by
        unfold moveRecords
        rw [List.map_map]
        exact List.map_congr_left (fun s hs => ((hR1 s hs).2.2).symm)
      rw [he]
      exact hnames.nodup_iff.mpr hnod
    refine ⟨he2, hview, ?_, ?_⟩
    · intro kv hkv hsu hkd
      rw [hview kv.1, movedView_eq_base]
      · rw [← hkd]
        exact mem_fsLookup fs kv.1 kv.2 hwf.1 hkv
      · intro hmem
        rw [hRmapfst] at hmem
        have hmem2 := hkeysperm.mem_iff.mp hmem
        rcases List.mem_map.mp hmem2 with ⟨kv2, hm2, he2m⟩
        rcases List.mem_filter.mp hm2 with ⟨hm3, hcond⟩
        rw [Bool.and_eq_true] at hcond
        have l1 := mem_fsLookup fs kv2.1 kv2.2 hwf.1 hm3
        have l2 := mem_fsLookup fs kv.1 kv.2 hwf.1 hkv
        rw [he2m, l2] at l1
        have heq := Option.some.inj l1
        rw [hkd] at heq
        rw [← heq] at hcond
        simp [FsEntry.isFile] at hcond
      · intro m hm he
        have hn := hclear (m.1, FsEntry.file m.2) (hMfs m hm) (hMR m hm) rfl
        have l2 := mem_fsLookup fs kv.1 kv.2 hwf.1 hkv
        rw [he, hn] at l2
        exact Option.noConfusion l2
    · intro kv hkv hsu c hkc
      have hmemR : kv.1 ∈ (moveRecords fs (list_dir_tree fs root)).map Prod.fst := by
        rw [hRmapfst]
        apply hkeysperm.mem_iff.mpr
        refine List.mem_map.mpr ⟨kv, List.mem_filter.mpr ⟨hkv, ?_⟩, rfl⟩
        rw [Bool.and_eq_true]
        exact ⟨decide_eq_true hsu, by rw [hkc]; rfl⟩
      constructor
      · rw [hview kv.1]
        unfold movedView
        rw [if_pos hmemR]
      · rcases List.mem_map.mp hmemR with ⟨m, hmR, hfst⟩
        have hm2 : m.2 = c := by
          rw [hMR2 m hmR, hfst]
          unfold contentAt
          rw [mem_fsLookup fs kv.1 kv.2 hwf.1 hkv, hkc]
        rw [hview (resolve dest ++ [lastName kv.1]), ← hfst,
          movedView_at_dest fs (resolve root) (resolve dest) _ m hmR hMR hndR
            hsep1 hsep2, hm2]
  · intro hnod
    have hn2 : ¬ (([] : List (List String × List Nat)).map (fun m => lastName m.1) ++
        (list_dir_tree fs root).map (fun s => (ospSplit s).2)).Nodup := by
      simp only [List.map_nil, List.nil_append]
      intro hc
      exact hnod (hnames.nodup_iff.mp hc)
    obtain ⟨he2, extra, hxne, hextra, hnodup, hview0⟩ := hB hn2
    rw [List.nil_append] at hxne hnodup
    refine ⟨he2, extra, hxne, hextra, hnodup, ?_⟩
    intro j
    have hv := hview0 j
    rw [List.nil_append] at hv
    exact hv

theorem move_all_files_from_root_spec_witness :
    WFfs [(["r"], FsEntry.dir), (["r", "a"], FsEntry.file [7]),
        (["d"], FsEntry.dir)] ∧
      (treeBasenames [(["r"], FsEntry.dir), (["r", "a"], FsEntry.file [7]),
        (["d"], FsEntry.dir)] (resolve "r")).Nodup ∧
      (move_all_files_from_root [(["r"], FsEntry.dir), (["r", "a"], FsEntry.file [7]),
        (["d"], FsEntry.dir)] "r" "d").2 = none ∧
      fsLookup (move_all_files_from_root [(["r"], FsEntry.dir),
          (["r", "a"], FsEntry.file [7]), (["d"], FsEntry.dir)] "r" "d").1
        (resolve "d" ++ [lastName ["r", "a"]]) = some (FsEntry.file [7]) := by
  refine ⟨by decide, by decide, ?_, ?_⟩
  · exact ((move_all_files_from_root_spec
      [(["r"], FsEntry.dir), (["r", "a"], FsEntry.file [7]), (["d"], FsEntry.dir)]
      "r" "d" (by decide) (by decide) (by decide) (by decide) (by decide)
      (by decide)).1 (by decide)).1
  · exact (((move_all_files_from_root_spec
      [(["r"], FsEntry.dir), (["r", "a"], FsEntry.file [7]), (["d"], FsEntry.dir)]
      "r" "d" (by decide) (by decide) (by decide) (by decide) (by decide)
      (by decide)).1 (by decide)).2.2.2
      (["r", "a"], FsEntry.file [7]) (by decide) (by decide) [7] rfl).2
